import Mathlib

/-!
# Verification of `algorithm_trees.py`

Shallow embedding of the tile-based DNA assembly algorithms
(`LSO`, `alg2`, `alg3` from `src/algorithm_trees.py`) and proofs of the
spec claims about them.

The Python code works over `networkx` graphs.  We embed:

* an undirected graph as a list of node identifiers together with a list
  of (insertion-ordered) edges, matching `G.nodes` / `G.edges`;
* `nx.node_connected_component(G, u)` as a saturation-based closure
  computation `compList` (networkx implements it as a BFS; only the set
  of vertices — and hence its size — is consumed by the source);
* the transient mutation `G.remove_edge(u, v) … G.add_edge(u, v)` by
  explicit state passing in a fold over the snapshot `list(G.edges())`.
-/

namespace AlgTrees

/-- A directed or undirected edge as stored by networkx: an ordered pair
(networkx `Graph` stores one orientation; iteration yields it). -/
abbrev Edge := Nat × Nat

/-- The input graph: `G.nodes` and `G.edges` in insertion order,
mirroring `G = nx.Graph(); G.add_nodes_from(...); G.add_edges_from(...)`. -/
structure Graph where
  nodes : List Nat
  edges : List Edge
deriving DecidableEq, Repr

/-- Undirected adjacency: the pair is stored in either orientation,
as queried by networkx on a `Graph`. -/
def adjP (es : List Edge) (x y : Nat) : Prop := (x, y) ∈ es ∨ (y, x) ∈ es

instance (es : List Edge) (x y : Nat) : Decidable (adjP es x y) := by
  unfold adjP; infer_instance

/-- Undirected reachability: the connectivity relation generated by the
edge list.  `nx.node_connected_component(G, u)` is exactly the set of
vertices reachable from `u` through this relation. -/
def reach (es : List Edge) (x y : Nat) : Prop :=
  Relation.ReflTransGen (adjP es) x y

/-- Removal of the undirected edge `{u, v}`, as by `G.remove_edge(u, v)`. -/
def eraseE (es : List Edge) (u v : Nat) : List Edge :=
  es.filter (fun e => !(e = (u, v) ∨ e = (v, u) : Bool))

/-- One saturation round of the connected-component computation: add every
node of `ns` adjacent to the current front `s`. -/
def grow (ns : List Nat) (es : List Edge) (s : List Nat) : List Nat :=
  s ++ ns.filter (fun y => y ∉ s ∧ s.any (fun x => decide (adjP es x y)))

/-- The connected component of `u`, as a duplicate-free list: saturate
adjacency `|ns|` times starting from `{u}`.  Embeds
`nx.node_connected_component(G, u)`; the source consumes only its size. -/
def compList (ns : List Nat) (es : List Edge) (u : Nat) : List Nat :=
  (grow ns es)^[ns.length] [u]

/-! ### Reachability and component computation: basic lemmas -/

theorem adjP_symm {es : List Edge} {x y : Nat} (h : adjP es x y) : adjP es y x :=
  h.elim .inr .inl

theorem reach_symm {es : List Edge} {x y : Nat} (h : reach es x y) : reach es y x :=
  Relation.ReflTransGen.symmetric (fun _ _ h => adjP_symm h) h

theorem reach_trans {es : List Edge} {x y z : Nat} (h₁ : reach es x y)
    (h₂ : reach es y z) : reach es x z := h₁.trans h₂

theorem adjP_congr {es₁ es₂ : List Edge} (h : ∀ e, e ∈ es₁ ↔ e ∈ es₂) (x y : Nat) :
    adjP es₁ x y ↔ adjP es₂ x y := by
  unfold adjP; rw [h, h]

theorem reach_mono {es₁ es₂ : List Edge} (h : ∀ e, e ∈ es₁ → e ∈ es₂) {x y : Nat}
    (hr : reach es₁ x y) : reach es₂ x y :=
  Relation.ReflTransGen.mono (fun _ _ ha => ha.elim (fun m => .inl (h _ m))
    (fun m => .inr (h _ m))) hr

theorem mem_eraseE {es : List Edge} {p q : Nat} {e : Edge} :
    e ∈ eraseE es p q ↔ e ∈ es ∧ e ≠ (p, q) ∧ e ≠ (q, p) := by
  simp [eraseE, List.mem_filter]

theorem eraseE_subset {es : List Edge} {p q : Nat} : ∀ e ∈ eraseE es p q, e ∈ es :=
  fun _ h => (mem_eraseE.1 h).1

/-- Walk surgery: a walk in `es` either survives the removal of the
undirected edge `{p, q}`, or its endpoint is already reachable from `p`
or from `q` in the reduced graph. -/
theorem reach_split {es : List Edge} {p q a w : Nat} (h : reach es a w) :
    reach (eraseE es p q) a w ∨ reach (eraseE es p q) p w ∨
      reach (eraseE es p q) q w := by
  induction h with
  | refl => exact .inl .refl
  | tail _ hstep ih =>
    rename_i b c _
    by_cases hbc : adjP (eraseE es p q) b c
    · rcases ih with h | h | h
      · exact .inl (h.tail hbc)
      · exact .inr (.inl (h.tail hbc))
      · exact .inr (.inr (h.tail hbc))
    · -- the step uses exactly the removed edge, so `c` is `p` or `q`
      have hc : c = p ∨ c = q := by
        rcases hstep with hm | hm
        · rcases (em ((b, c) = (p, q))) with he | he
          · exact .inr (congrArg Prod.snd he)
          · rcases (em ((b, c) = (q, p))) with he' | he'
            · exact .inl (congrArg Prod.snd he')
            · exact absurd (.inl (mem_eraseE.2 ⟨hm, he, he'⟩)) hbc
        · rcases (em ((c, b) = (p, q))) with he | he
          · exact .inl (congrArg Prod.fst he)
          · rcases (em ((c, b) = (q, p))) with he' | he'
            · exact .inr (congrArg Prod.fst he')
            · exact absurd (.inr (mem_eraseE.2 ⟨hm, he, he'⟩)) hbc
      rcases hc with rfl | rfl
      · exact .inr (.inl .refl)
      · exact .inr (.inr .refl)

/-! ### Correctness of `compList` -/

theorem grow_append (ns : List Nat) (es : List Edge) (s : List Nat) :
    ∃ t, grow ns es s = s ++ t := ⟨_, rfl⟩

theorem subset_grow (ns : List Nat) (es : List Edge) (s : List Nat) :
    ∀ a ∈ s, a ∈ grow ns es s := fun _ h => List.mem_append_left _ h

theorem mem_iterate_grow_mono (ns : List Nat) (es : List Edge) (s : List Nat)
    {k m : Nat} (h : k ≤ m) : ∀ a ∈ (grow ns es)^[k] s, a ∈ (grow ns es)^[m] s := by
  induction m with
  | zero => cases Nat.le_zero.1 h; exact fun a ha => ha
  | succ m ih =>
    rcases Nat.lt_or_ge k (m + 1) with hk | hk
    · intro a ha
      rw [Function.iterate_succ_apply']
      exact subset_grow _ _ _ _ (ih (Nat.lt_succ_iff.1 hk) a ha)
    · have : k = m + 1 := Nat.le_antisymm h hk
      subst this; exact fun a ha => ha

theorem iterate_grow_subset_nodes {ns : List Nat} {es : List Edge} {u : Nat}
    (hu : u ∈ ns) (k : Nat) : ∀ a ∈ (grow ns es)^[k] [u], a ∈ ns := by
  induction k with
  | zero => intro a ha; simp at ha; subst ha; exact hu
  | succ k ih =>
    intro a ha
    rw [Function.iterate_succ_apply'] at ha
    rcases List.mem_append.1 ha with h | h
    · exact ih a h
    · exact List.mem_of_mem_filter h

theorem iterate_grow_nodup {ns : List Nat} {es : List Edge} {u : Nat}
    (hns : ns.Nodup) (k : Nat) : ((grow ns es)^[k] [u]).Nodup := by
  induction k with
  | zero => simp
  | succ k ih =>
    rw [Function.iterate_succ_apply']
    refine List.Nodup.append ih (List.Nodup.filter _ hns) ?_
    intro a ha hb
    have := List.of_mem_filter hb
    simp only [decide_eq_true_eq] at this
    exact this.1 ha

theorem iterate_grow_sound {ns : List Nat} {es : List Edge} {u : Nat} (k : Nat) :
    ∀ a ∈ (grow ns es)^[k] [u], reach es u a := by
  induction k with
  | zero => intro a ha; simp at ha; subst ha; exact .refl
  | succ k ih =>
    intro a ha
    rw [Function.iterate_succ_apply'] at ha
    rcases List.mem_append.1 ha with h | h
    · exact ih a h
    · have := List.of_mem_filter h
      simp only [decide_eq_true_eq, List.any_eq_true] at this
      obtain ⟨-, x, hx, hadj⟩ := this
      exact (ih x hx).tail (by simpa using hadj)

theorem grow_fixed_iterate {ns : List Nat} {es : List Edge} {s : List Nat}
    (h : grow ns es s = s) (m : Nat) : (grow ns es)^[m] s = s := by
  induction m with
  | zero => rfl
  | succ m ih => rw [Function.iterate_succ_apply', ih, h]

theorem exists_grow_fixpoint {ns : List Nat} {es : List Edge} {u : Nat}
    (hns : ns.Nodup) (hu : u ∈ ns) :
    grow ns es ((grow ns es)^[ns.length] [u]) = (grow ns es)^[ns.length] [u] := by
  by_contra hne
  -- no iterate below `ns.length` is a fixpoint either
  have hnofix : ∀ k ≤ ns.length, grow ns es ((grow ns es)^[k] [u]) ≠ (grow ns es)^[k] [u] := by
    intro k hk hfix
    refine hne ?_
    have heq : (grow ns es)^[ns.length] [u] = (grow ns es)^[k] [u] := by
      have := grow_fixed_iterate hfix (ns.length - k)
      rwa [← Function.iterate_add_apply, Nat.sub_add_cancel hk] at this
    rw [heq]
    exact hfix
  -- so the length grows at every step, exceeding `|ns|`
  have hlen : ∀ k ≤ ns.length, k + 1 ≤ ((grow ns es)^[k] [u]).length := by
    intro k hk
    induction k with
    | zero => simp
    | succ k ih =>
      have h1 := ih (Nat.le_of_succ_le hk)
      have h2 := hnofix k (Nat.le_of_succ_le hk)
      rw [Function.iterate_succ_apply']
      obtain ⟨t, ht⟩ := grow_append ns es ((grow ns es)^[k] [u])
      have hne' : t ≠ [] := by
        intro h0; rw [h0, List.append_nil] at ht; exact h2 ht
      rw [ht, List.length_append]
      have : 1 ≤ t.length := List.length_pos.2 hne'
      omega
  have h1 := hlen ns.length le_rfl
  have h2 : ((grow ns es)^[ns.length] [u]).length ≤ ns.length := by
    have hsub : ∀ a ∈ (grow ns es)^[ns.length] [u], a ∈ ns :=
      iterate_grow_subset_nodes hu ns.length
    exact ((iterate_grow_nodup hns ns.length).subperm hsub).length_le
  omega

theorem compList_closed {ns : List Nat} {es : List Edge} {u : Nat}
    (hns : ns.Nodup) (hu : u ∈ ns) {x y : Nat} (hx : x ∈ compList ns es u)
    (hy : y ∈ ns) (hadj : adjP es x y) : y ∈ compList ns es u := by
  by_contra hyn
  have hfix := @exists_grow_fixpoint ns es u hns hu
  unfold compList at hx hyn
  have hmem : y ∈ grow ns es ((grow ns es)^[ns.length] [u]) := by
    rw [grow]
    refine List.mem_append_right _ (List.mem_filter.2 ⟨hy, ?_⟩)
    simp only [decide_eq_true_eq, List.any_eq_true]
    exact ⟨hyn, x, hx, by simpa using hadj⟩
  rw [hfix] at hmem
  exact hyn hmem

theorem mem_compList_iff {ns : List Nat} {es : List Edge} {u : Nat}
    (hns : ns.Nodup) (hu : u ∈ ns)
    (hes : ∀ e ∈ es, e.1 ∈ ns ∧ e.2 ∈ ns) (w : Nat) :
    w ∈ compList ns es u ↔ reach es u w := by
  constructor
  · exact iterate_grow_sound ns.length w
  · intro h
    induction h with
    | refl =>
      exact mem_iterate_grow_mono ns es [u] (Nat.zero_le _) u (by simp)
    | tail _ hstep ih =>
      rename_i b c _
      have hc : c ∈ ns := by
        rcases hstep with hm | hm
        · exact (hes _ hm).2
        · exact (hes _ hm).1
      exact compList_closed hns hu ih hc hstep

theorem compList_nodup {ns : List Nat} (es : List Edge) (u : Nat)
    (hns : ns.Nodup) : (compList ns es u).Nodup :=
  iterate_grow_nodup hns ns.length

theorem compList_subset {ns : List Nat} {es : List Edge} {u : Nat} (hu : u ∈ ns) :
    ∀ a ∈ compList ns es u, a ∈ ns :=
  iterate_grow_subset_nodes hu ns.length

theorem grow_congr {ns : List Nat} {es₁ es₂ : List Edge}
    (h : ∀ e, e ∈ es₁ ↔ e ∈ es₂) (s : List Nat) : grow ns es₁ s = grow ns es₂ s := by
  unfold grow
  congr 1
  apply List.filter_congr
  intro y _
  have : ∀ x, decide (adjP es₁ x y) = decide (adjP es₂ x y) := fun x =>
    decide_eq_decide.2 (adjP_congr h x y)
  simp only [this]

theorem compList_congr {ns : List Nat} {es₁ es₂ : List Edge}
    (h : ∀ e, e ∈ es₁ ↔ e ∈ es₂) (u : Nat) :
    compList ns es₁ u = compList ns es₂ u := by
  unfold compList
  induction ns.length with
  | zero => rfl
  | succ k ih => rw [Function.iterate_succ_apply', Function.iterate_succ_apply', ih,
      grow_congr h]

/-! ## The Orienter (`LSO`)

```python
def LSO(G):
    T = nx.DiGraph()
    T.add_nodes_from(list(G.nodes))
    for u,v,a in list(G.edges(data=True)):
        G.remove_edge(u, v)
        l1 = len(nx.node_connected_component(G,u))
        l2 = len(nx.node_connected_component(G,v))
        if l2>l1:
            T.add_edge(v,u)
        else:
            T.add_edge(u,v)
        G.add_edge(u,v)
    ...
    return T
```

The loop iterates over a snapshot of the edge list while mutating `G`;
we model the mutation by passing the working edge list through a fold.
`G.add_edge(u, v)` re-inserts the removed edge (at the end of the
adjacency structure). -/

/-- State of the `LSO` loop: the working (mutated) edge list of `G` and
the directed edges accumulated into `T`, in emission order. -/
def lsoStep (ns : List Nat) (st : List Edge × List Edge) (e : Edge) :
    List Edge × List Edge :=
  let g := eraseE st.1 e.1 e.2
  let l1 := (compList ns g e.1).length
  let l2 := (compList ns g e.2).length
  (g ++ [(e.1, e.2)], if l2 > l1 then st.2 ++ [(e.2, e.1)] else st.2 ++ [(e.1, e.2)])

/-- The final state of the `LSO` loop on graph `G`. -/
def lsoRun (G : Graph) : List Edge × List Edge :=
  G.edges.foldl (lsoStep G.nodes) (G.edges, [])

/-- The directed edge list of the tree `T` returned by `LSO(G)`.
`T`'s node list is `G.nodes` (`T.add_nodes_from(list(G.nodes))`). -/
def LSO (G : Graph) : List Edge := (lsoRun G).2

/-- The edge list of the input graph `G` after `LSO(G)` has returned
(the Python function mutates `G` transiently). -/
def lsoFinal (G : Graph) : List Edge := (lsoRun G).1

/-- The per-edge orientation rule, stated against the *original* edge
list: remove exactly this edge, compare the component sizes of the two
endpoints, and direct the edge toward the smaller side (ties keep the
stored orientation `(u, v)`). -/
def orientEdge (ns : List Nat) (es : List Edge) (e : Edge) : Edge :=
  let g := eraseE es e.1 e.2
  if (compList ns g e.2).length > (compList ns g e.1).length then (e.2, e.1) else e

/-- Well-formedness of the input as built by `nx.Graph()`: distinct
nodes, edge endpoints among the nodes, no self-loops, and each
undirected edge stored exactly once (networkx stores no parallel edges
and a single orientation per edge). -/
def Graph.WF (G : Graph) : Prop :=
  G.nodes.Nodup ∧
  (∀ e ∈ G.edges, e.1 ∈ G.nodes ∧ e.2 ∈ G.nodes ∧ e.1 ≠ e.2) ∧
  G.edges.Nodup ∧
  (∀ e ∈ G.edges, (e.2, e.1) ∉ G.edges)

instance (G : Graph) : Decidable G.WF := by
  unfold Graph.WF; infer_instance

/-! ### The transient edge removal is restored at every step -/

theorem eraseE_append_perm {l : List Edge} {u v : Nat} (hnd : l.Nodup)
    (he : (u, v) ∈ l) (hrev : (v, u) ∉ l) :
    (eraseE l u v ++ [(u, v)]).Perm l := by
  have hnd1 : (eraseE l u v ++ [(u, v)]).Nodup := by
    refine List.Nodup.append (List.Nodup.filter _ hnd) (List.nodup_singleton _) ?_
    intro a ha hb
    rw [List.mem_singleton] at hb; subst hb
    exact (mem_eraseE.1 ha).2.1 rfl
  refine (List.perm_ext_iff_of_nodup hnd1 hnd).2 ?_
  intro e
  simp only [List.mem_append, mem_eraseE, List.mem_singleton]
  constructor
  · rintro (⟨h1, -, -⟩ | rfl)
    · exact h1
    · exact he
  · intro h
    by_cases h2 : e = (u, v)
    · exact .inr h2
    · refine .inl ⟨h, h2, ?_⟩
      rintro rfl; exact hrev h

theorem lsoStep_perm {ns : List Nat} {es0 : List Edge} {st : List Edge × List Edge}
    {e : Edge} (hnd : es0.Nodup) (hrev : (e.2, e.1) ∉ es0)
    (he : e ∈ es0) (hp : st.1.Perm es0) : ((lsoStep ns st e).1).Perm es0 := by
  have hnd' : st.1.Nodup := hp.nodup_iff.2 hnd
  have hrev' : (e.2, e.1) ∉ st.1 := fun h => hrev (hp.mem_iff.1 h)
  have he' : e ∈ st.1 := hp.mem_iff.2 he
  have h1 : (lsoStep ns st e).1 = eraseE st.1 e.1 e.2 ++ [(e.1, e.2)] := rfl
  rw [h1]
  exact (eraseE_append_perm hnd' he' hrev').trans hp

theorem lsoStep_emit {ns : List Nat} {es0 : List Edge} {st : List Edge × List Edge}
    {e : Edge} (hp : st.1.Perm es0) :
    (lsoStep ns st e).2 = st.2 ++ [orientEdge ns es0 e] := by
  have hcong : ∀ x, compList ns (eraseE st.1 e.1 e.2) x
      = compList ns (eraseE es0 e.1 e.2) x := by
    intro x
    apply compList_congr
    intro f
    rw [mem_eraseE, mem_eraseE, hp.mem_iff]
  show (if _ > _ then st.2 ++ [(e.2, e.1)] else st.2 ++ [(e.1, e.2)]) = _
  rw [hcong, hcong]
  unfold orientEdge
  by_cases h : (compList ns (eraseE es0 e.1 e.2) e.2).length >
      (compList ns (eraseE es0 e.1 e.2) e.1).length
  · rw [if_pos h, if_pos h]
  · rw [if_neg h, if_neg h]

/-- Combined loop invariant for `LSO`: after any number of steps the
working edge list of `G` is a permutation of the original, and the
emitted directed edges are the per-edge orientations of the prefix
computed against the *original* edge list. -/
theorem lsoRun_invariant (G : Graph) (hWF : G.WF) (k : Nat) :
    ((G.edges.take k).foldl (lsoStep G.nodes) (G.edges, [])).1.Perm G.edges ∧
    ((G.edges.take k).foldl (lsoStep G.nodes) (G.edges, [])).2
      = (G.edges.take k).map (orientEdge G.nodes G.edges) := by
  obtain ⟨-, -, hnd, hrev⟩ := hWF
  induction k with
  | zero => simp
  | succ k ih =>
    rcases Nat.lt_or_ge k G.edges.length with hk | hk
    · rw [List.take_succ, List.getElem?_eq_getElem hk]
      simp only [Option.toList_some, List.foldl_append, List.foldl_cons,
        List.foldl_nil, List.map_append, List.map_cons, List.map_nil]
      have hmem : G.edges[k] ∈ G.edges := List.getElem_mem hk
      refine ⟨lsoStep_perm hnd (hrev _ hmem) hmem ih.1, ?_⟩
      rw [lsoStep_emit ih.1, ih.2]
    · rw [List.take_succ, List.getElem?_eq_none hk]
      simpa using ih

/-- With a well-formed input, `LSO` emits exactly the per-edge
orientations computed against the original (unmutated) edge list. -/
theorem LSO_eq_map (G : Graph) (hWF : G.WF) :
    LSO G = G.edges.map (orientEdge G.nodes G.edges) := by
  have := (lsoRun_invariant G hWF G.edges.length).2
  rwa [List.take_length] at this

theorem lsoFinal_perm (G : Graph) (hWF : G.WF) : (lsoFinal G).Perm G.edges := by
  have := (lsoRun_invariant G hWF G.edges.length).1
  rwa [List.take_length] at this

/-! ### Tree inputs: every edge a bridge, connected

The spec's in-degree invariant for `LSO` fails on connected graphs with
cycles; it holds when every edge of the (connected) input is a bridge,
i.e. the input is a tree.  `IsTreeInput` is the proof-side hypothesis,
`isTreeInputB` an equivalent executable check used by witnesses. -/

def IsTreeInput (G : Graph) : Prop :=
  G.WF ∧ G.nodes ≠ [] ∧
  (∀ u ∈ G.nodes, ∀ w ∈ G.nodes, reach G.edges u w) ∧
  (∀ e ∈ G.edges, ¬ reach (eraseE G.edges e.1 e.2) e.1 e.2)

def isTreeInputB (G : Graph) : Prop :=
  G.WF ∧ G.nodes ≠ [] ∧
  (∀ u ∈ G.nodes, ∀ w ∈ G.nodes, w ∈ compList G.nodes G.edges u) ∧
  (∀ e ∈ G.edges, e.2 ∉ compList G.nodes (eraseE G.edges e.1 e.2) e.1)

instance (G : Graph) : Decidable (isTreeInputB G) := by
  unfold isTreeInputB; infer_instance

theorem isTreeInput_of_B {G : Graph} (h : isTreeInputB G) : IsTreeInput G := by
  obtain ⟨hWF, hne, hconn, hbr⟩ := h
  have hnd := hWF.1
  have hep := hWF.2.1
  refine ⟨hWF, hne, ?_, ?_⟩
  · intro u hu w hw
    exact iterate_grow_sound _ _ (hconn u hu w hw)
  · intro e he hr
    refine hbr e he ?_
    have he1 : e.1 ∈ G.nodes := (hep e he).1
    have hep' : ∀ f ∈ eraseE G.edges e.1 e.2, f.1 ∈ G.nodes ∧ f.2 ∈ G.nodes := by
      intro f hf
      have := hep f (eraseE_subset f hf)
      exact ⟨this.1, this.2.1⟩
    exact (mem_compList_iff hnd he1 hep' e.2).2 hr

/-! ### Component partition at a bridge -/

theorem bridge_cover {G : Graph} (h : IsTreeInput G) {p q : Nat}
    (hpq : (p, q) ∈ G.edges) :
    ∀ w ∈ G.nodes, reach (eraseE G.edges p q) p w ∨ reach (eraseE G.edges p q) q w := by
  intro w hw
  have hp : p ∈ G.nodes := (h.1.2.1 _ hpq).1
  have hr : reach G.edges p w := h.2.2.1 p hp w hw
  rcases @reach_split G.edges p q p w hr with h1 | h1 | h1
  · exact .inl h1
  · exact .inl h1
  · exact .inr h1

theorem bridge_disjoint {G : Graph} (h : IsTreeInput G) {p q : Nat}
    (hpq : (p, q) ∈ G.edges) {w : Nat}
    (h1 : reach (eraseE G.edges p q) p w) (h2 : reach (eraseE G.edges p q) q w) :
    False :=
  h.2.2.2 _ hpq (h1.trans (reach_symm h2))

/-- At a bridge `{p, q}` of a connected graph, the two components of the
endpoints partition the node set: their sizes add up to `|nodes|`. -/
theorem bridge_sizes {G : Graph} (h : IsTreeInput G) {p q : Nat}
    (hpq : (p, q) ∈ G.edges) :
    (compList G.nodes (eraseE G.edges p q) p).length +
      (compList G.nodes (eraseE G.edges p q) q).length = G.nodes.length := by
  have hnd := h.1.1
  have hep := h.1.2.1
  have hp : p ∈ G.nodes := (hep _ hpq).1
  have hq : q ∈ G.nodes := (hep _ hpq).2.1
  have hep' : ∀ f ∈ eraseE G.edges p q, f.1 ∈ G.nodes ∧ f.2 ∈ G.nodes := by
    intro f hf
    have := hep f (eraseE_subset f hf)
    exact ⟨this.1, this.2.1⟩
  set es' := eraseE G.edges p q with hes'
  have hmemp := fun w => @mem_compList_iff G.nodes es' p hnd hp hep' w
  have hmemq := fun w => @mem_compList_iff G.nodes es' q hnd hq hep' w
  have hdisj : ∀ a ∈ compList G.nodes es' p, a ∉ compList G.nodes es' q := by
    intro a ha hb
    exact bridge_disjoint h hpq ((hmemp a).1 ha) ((hmemq a).1 hb)
  have happ : (compList G.nodes es' p ++ compList G.nodes es' q).Nodup :=
    List.Nodup.append (compList_nodup _ _ hnd) (compList_nodup _ _ hnd) hdisj
  have hperm : (compList G.nodes es' p ++ compList G.nodes es' q).Perm G.nodes := by
    refine (List.perm_ext_iff_of_nodup happ hnd).2 ?_
    intro a
    rw [List.mem_append]
    constructor
    · rintro (ha | ha)
      · exact compList_subset hp a ha
      · exact compList_subset hq a ha
    · intro ha
      rcases bridge_cover h hpq a ha with hr | hr
      · exact .inl ((hmemp a).2 hr)
      · exact .inr ((hmemq a).2 hr)
  have := hperm.length_eq
  simpa using this

theorem eraseE_comm (es : List Edge) (u v : Nat) : eraseE es u v = eraseE es v u := by
  unfold eraseE
  apply List.filter_congr
  intro e _
  exact congrArg Bool.not (decide_eq_decide.2 or_comm)

theorem adj_ne {G : Graph} (h : IsTreeInput G) {x y : Nat} (ha : adjP G.edges x y) :
    x ≠ y := by
  rcases ha with hm | hm
  · exact (h.1.2.1 _ hm).2.2
  · exact (Ne.symm ((h.1.2.1 _ hm).2.2))

theorem bridge_of_adj {G : Graph} (h : IsTreeInput G) {x y : Nat}
    (ha : adjP G.edges x y) : ¬ reach (eraseE G.edges x y) x y := by
  rcases ha with hm | hm
  · exact h.2.2.2 (x, y) hm
  · intro hr
    refine h.2.2.2 (y, x) hm ?_
    rw [eraseE_comm]
    exact reach_symm hr

theorem mem_eraseE_eraseE {es : List Edge} {a b c d : Nat} {e : Edge}
    (h : e ∈ eraseE (eraseE es a b) c d) : e ∈ eraseE es c d := by
  rw [mem_eraseE] at h ⊢
  exact ⟨eraseE_subset _ h.1, h.2⟩

/-- Two different branches hanging off the same vertex `x` are disjoint:
a vertex reachable from `y` without the edge `{x,y}` and from `z` without
the edge `{x,z}` would close a cycle through `x`. -/
theorem branch_disjoint {G : Graph} (h : IsTreeInput G) {x y z w : Nat}
    (he1 : adjP G.edges x y) (he2 : adjP G.edges x z) (hyz : y ≠ z)
    (hw1 : reach (eraseE G.edges x y) y w)
    (hw2 : reach (eraseE G.edges x z) z w) : False := by
  have hxy := adj_ne h he1
  have hxz := adj_ne h he2
  have hbr1 := bridge_of_adj h he1
  have hbr2 := bridge_of_adj h he2
  -- `z` stays adjacent to `x` after removing `{x, y}`
  have hadj1 : adjP (eraseE G.edges x y) x z := by
    rcases he2 with hm | hm
    · refine .inl (mem_eraseE.2 ⟨hm, ?_, ?_⟩)
      · intro hc; exact hyz (congrArg Prod.snd hc).symm
      · intro hc; exact hxy (congrArg Prod.fst hc)
    · refine .inr (mem_eraseE.2 ⟨hm, ?_, ?_⟩)
      · intro hc; exact hxz (congrArg Prod.fst hc).symm
      · intro hc; exact hyz (congrArg Prod.fst hc).symm
  -- `y` stays adjacent to `x` after removing `{x, z}`
  have hadj2 : adjP (eraseE G.edges x z) x y := by
    rcases he1 with hm | hm
    · refine .inl (mem_eraseE.2 ⟨hm, ?_, ?_⟩)
      · intro hc; exact hyz (congrArg Prod.snd hc)
      · intro hc; exact hxz (congrArg Prod.fst hc)
    · refine .inr (mem_eraseE.2 ⟨hm, ?_, ?_⟩)
      · intro hc; exact hxy (congrArg Prod.fst hc).symm
      · intro hc; exact hyz (congrArg Prod.fst hc)
  -- `z` cannot reach `w` in `G - {x,y}`
  have hC : ¬ reach (eraseE G.edges x y) z w := by
    intro hr
    exact hbr1 ((Relation.ReflTransGen.single hadj1).trans (hr.trans (reach_symm hw1)))
  rcases @reach_split (eraseE G.edges x z) x y z w hw2 with h1 | h1 | h1
  · exact hC (reach_mono (fun e => mem_eraseE_eraseE) h1)
  · have hxw : reach (eraseE G.edges x y) x w :=
      reach_mono (fun e => mem_eraseE_eraseE) h1
    exact hbr1 (hxw.trans (reach_symm hw1))
  · have hyw : reach (eraseE G.edges x z) y w :=
      reach_mono (fun e he => eraseE_subset e he) h1
    exact hbr2 ((Relation.ReflTransGen.single hadj2).trans (hyw.trans (reach_symm hw2)))

/-! ### In-degrees of the orientation -/

/-- The in-degree of `w` in the directed edge list `es`, as computed by
`T.in_degree()` on a networkx `DiGraph`. -/
def indeg (es : List Edge) (w : Nat) : Nat :=
  (es.filter (fun e => e.2 = w)).length

/-- Every directed edge of `LSO` into `x` comes from an input edge
`{x, y}` whose `y`-side component holds at least half the nodes. -/
theorem incoming_size {G : Graph} (h : IsTreeInput G) {e : Edge}
    (he : e ∈ G.edges) {x : Nat}
    (hx : (orientEdge G.nodes G.edges e).2 = x) :
    ∃ y, (e = (x, y) ∨ e = (y, x)) ∧
      G.nodes.length ≤ 2 * (compList G.nodes (eraseE G.edges x y) y).length := by
  obtain ⟨u, v⟩ := e
  have hsz := @bridge_sizes G h u v he
  unfold orientEdge at hx
  by_cases hcmp : (compList G.nodes (eraseE G.edges u v) v).length >
      (compList G.nodes (eraseE G.edges u v) u).length
  · rw [if_pos hcmp] at hx
    -- flipped: edge `v → u`, so `x = u`, other endpoint `y = v`
    simp only at hx
    subst hx
    refine ⟨v, .inl rfl, ?_⟩
    omega
  · rw [if_neg hcmp] at hx
    -- kept: edge `u → v`, so `x = v`, other endpoint `y = u`
    simp only at hx
    subst hx
    refine ⟨u, .inr rfl, ?_⟩
    rw [eraseE_comm]
    omega

theorem two_of_filter {α : Type} {l : List α} {p : α → Bool} (hnd : l.Nodup)
    (h2 : 2 ≤ (l.filter p).length) :
    ∃ a b, a ∈ l ∧ b ∈ l ∧ a ≠ b ∧ p a ∧ p b := by
  have hfn : (l.filter p).Nodup := hnd.filter p
  rcases hf : l.filter p with - | ⟨a, - | ⟨b, t⟩⟩
  · rw [hf] at h2; simp at h2
  · rw [hf] at h2; simp at h2
  · rw [hf] at hfn
    have ha : a ∈ l.filter p := by rw [hf]; exact List.mem_cons_self _ _
    have hb : b ∈ l.filter p := by rw [hf]; exact List.mem_cons_of_mem _ (List.mem_cons_self _ _)
    have hab : a ≠ b := by
      rintro rfl
      exact (List.nodup_cons.1 hfn).1 (List.mem_cons_self _ _)
    exact ⟨a, b, List.mem_of_mem_filter ha, List.mem_of_mem_filter hb, hab,
      List.of_mem_filter ha, List.of_mem_filter hb⟩

/-- On a tree input, no vertex receives two edges of the orientation. -/
theorem LSO_indeg_le_one {G : Graph} (h : IsTreeInput G) (x : Nat) :
    indeg (LSO G) x ≤ 1 := by
  by_contra hgt
  have h2 : 2 ≤ indeg (LSO G) x := Nat.lt_of_not_le hgt
  rw [indeg, LSO_eq_map G h.1, List.filter_map] at h2
  rw [List.length_map] at h2
  obtain ⟨e1, e2, he1, he2, hne, hp1, hp2⟩ := two_of_filter h.1.2.2.1 h2
  simp only [Function.comp_apply, decide_eq_true_eq] at hp1 hp2
  obtain ⟨y, hey, hy⟩ := incoming_size h he1 hp1
  obtain ⟨z, hez, hz⟩ := incoming_size h he2 hp2
  have hadjy : adjP G.edges x y := by
    rcases hey with rfl | rfl
    · exact .inl (by simpa using he1)
    · exact .inr (by simpa using he1)
  have hadjz : adjP G.edges x z := by
    rcases hez with rfl | rfl
    · exact .inl (by simpa using he2)
    · exact .inr (by simpa using he2)
  have hyz : y ≠ z := by
    rintro rfl
    -- then `e1` and `e2` are the same undirected edge stored twice
    rcases hey with rfl | rfl <;> rcases hez with h3 | h3
    · exact hne h3.symm
    · exact h.1.2.2.2 _ he2 (h3 ▸ he1)
    · exact h.1.2.2.2 _ he1 (h3 ▸ he2)
    · exact hne (h3.symm)
  -- the two branch components and `x` itself are pairwise disjoint
  have hnd := h.1.1
  have hep := h.1.2.1
  have hepy : ∀ f ∈ eraseE G.edges x y, f.1 ∈ G.nodes ∧ f.2 ∈ G.nodes := by
    intro f hf
    have := hep f (eraseE_subset f hf)
    exact ⟨this.1, this.2.1⟩
  have hepz : ∀ f ∈ eraseE G.edges x z, f.1 ∈ G.nodes ∧ f.2 ∈ G.nodes := by
    intro f hf
    have := hep f (eraseE_subset f hf)
    exact ⟨this.1, this.2.1⟩
  have hyn : y ∈ G.nodes := by
    rcases hadjy with hm | hm
    · exact (hep _ hm).2.1
    · exact (hep _ hm).1
  have hzn : z ∈ G.nodes := by
    rcases hadjz with hm | hm
    · exact (hep _ hm).2.1
    · exact (hep _ hm).1
  have hxn : x ∈ G.nodes := by
    rcases hadjy with hm | hm
    · exact (hep _ hm).1
    · exact (hep _ hm).2.1
  set By := compList G.nodes (eraseE G.edges x y) y with hBy
  set Bz := compList G.nodes (eraseE G.edges x z) z with hBz
  have hreachy : ∀ a ∈ By, reach (eraseE G.edges x y) y a :=
    fun a ha => iterate_grow_sound _ a ha
  have hreachz : ∀ a ∈ Bz, reach (eraseE G.edges x z) z a :=
    fun a ha => iterate_grow_sound _ a ha
  have hxBy : x ∉ By := by
    intro hm
    exact bridge_of_adj h hadjy (reach_symm (hreachy x hm))
  have hxBz : x ∉ Bz := by
    intro hm
    exact bridge_of_adj h hadjz (reach_symm (hreachz x hm))
  have hdisj : ∀ a ∈ By, a ∉ Bz := by
    intro a ha hb
    exact branch_disjoint h hadjy hadjz hyz (hreachy a ha) (hreachz a hb)
  have hndall : (By ++ Bz ++ [x]).Nodup := by
    refine List.Nodup.append (List.Nodup.append (compList_nodup _ _ hnd)
      (compList_nodup _ _ hnd) hdisj) (List.nodup_singleton _) ?_
    intro a ha hb
    rw [List.mem_singleton] at hb; subst hb
    rcases List.mem_append.1 ha with hm | hm
    · exact hxBy hm
    · exact hxBz hm
  have hsub : ∀ a ∈ By ++ Bz ++ [x], a ∈ G.nodes := by
    intro a ha
    rcases List.mem_append.1 ha with hm | hm
    · rcases List.mem_append.1 hm with hm' | hm'
      · exact compList_subset hyn a hm'
      · exact compList_subset hzn a hm'
    · rw [List.mem_singleton] at hm; subst hm; exact hxn
  have hlen : By.length + Bz.length + 1 ≤ G.nodes.length := by
    have := (hndall.subperm hsub).length_le
    simpa using this
  omega

/-! ### A tree input has exactly `n - 1` edges -/

theorem self_mem_compList (ns : List Nat) (es : List Edge) (u : Nat) :
    u ∈ compList ns es u :=
  mem_iterate_grow_mono ns es [u] (Nat.zero_le _) u (by simp)

theorem reach_nil {u w : Nat} (h : reach ([] : List Edge) u w) : u = w := by
  induction h with
  | refl => rfl
  | tail _ hstep _ => rcases hstep with hm | hm <;> simp at hm

theorem compList_edge_closed {ns : List Nat} {es : List Edge} {u : Nat}
    (hnd : ns.Nodup) (hu : u ∈ ns)
    (hep : ∀ f ∈ es, f.1 ∈ ns ∧ f.2 ∈ ns) {f : Edge} (hf : f ∈ es) :
    f.1 ∈ compList ns es u ↔ f.2 ∈ compList ns es u := by
  rw [mem_compList_iff hnd hu hep, mem_compList_iff hnd hu hep]
  constructor
  · intro h; exact h.tail (.inl hf)
  · intro h; exact h.tail (.inr hf)

theorem reach_restrict {es : List Edge} {A : List Nat}
    (hA : ∀ f ∈ es, f.1 ∈ A ↔ f.2 ∈ A) {a c : Nat} (ha : a ∈ A)
    (hr : reach es a c) :
    c ∈ A ∧ reach (es.filter (fun f => decide (f.1 ∈ A))) a c := by
  induction hr with
  | refl => exact ⟨ha, .refl⟩
  | tail _ hstep ih =>
    rename_i b c _
    obtain ⟨hb, hr'⟩ := ih
    rcases hstep with hm | hm
    · have hc : c ∈ A := (hA _ hm).1 hb
      refine ⟨hc, hr'.tail (.inl (List.mem_filter.2 ⟨hm, by simpa using hb⟩))⟩
    · have hc : c ∈ A := (hA _ hm).2 hb
      refine ⟨hc, hr'.tail (.inr (List.mem_filter.2 ⟨hm, by simpa using hc⟩))⟩

theorem eraseE_sublist (es : List Edge) (u v : Nat) :
    (eraseE es u v).Sublist es := List.filter_sublist es

/-- An edgeless connected graph is a single node. -/
theorem tree_edge_count_nil {G : Graph} (hes : G.edges = []) (h : IsTreeInput G) :
    G.edges.length + 1 = G.nodes.length := by
  obtain ⟨⟨hnd, -, -, -⟩, hne, hconn, -⟩ := h
  rw [hes]
  obtain ⟨a, rest, hns⟩ := List.exists_cons_of_ne_nil hne
  have hrest : rest = [] := by
    rcases rest with - | ⟨b, t⟩
    · rfl
    · exfalso
      have hb : b ∈ G.nodes := by rw [hns]; simp
      have haa : a ∈ G.nodes := by rw [hns]; simp
      have := hconn a haa b hb
      rw [hes] at this
      have hab : a = b := reach_nil this
      rw [hns] at hnd
      subst hab
      simp at hnd
  rw [hns, hrest]
  rfl

/-- A connected graph in which every edge is a bridge has exactly
`n - 1` edges (proved by splitting at any edge and recursing on the two
sides). -/
theorem tree_edge_count_aux : ∀ (m : Nat) (G : Graph), G.edges.length ≤ m →
    IsTreeInput G → G.edges.length + 1 = G.nodes.length := by
  intro m
  induction m with
  | zero =>
    intro G hlen h
    exact tree_edge_count_nil (List.length_eq_zero.1 (Nat.le_zero.1 hlen)) h
  | succ m ih =>
    intro G hlen h
    rcases hG : G.edges with - | ⟨e, rest⟩
    · have := tree_edge_count_nil hG h
      rw [hG] at this
      exact this
    · obtain ⟨p, q⟩ := e
      have hpq : (p, q) ∈ G.edges := by rw [hG]; exact List.mem_cons_self _ _
      have hWF := h.1
      obtain ⟨hnd, hep, hednd, hrev⟩ := hWF
      have hp : p ∈ G.nodes := (hep _ hpq).1
      have hq : q ∈ G.nodes := (hep _ hpq).2.1
      set es' := eraseE G.edges p q with hes'
      have hes'len : es'.length + 1 = G.edges.length := by
        have := (eraseE_append_perm hednd hpq (hrev _ hpq)).length_eq
        simpa using this
      have hep' : ∀ f ∈ es', f.1 ∈ G.nodes ∧ f.2 ∈ G.nodes := by
        intro f hf
        have := hep f (eraseE_subset f hf)
        exact ⟨this.1, this.2.1⟩
      set A := compList G.nodes es' p with hA
      set B := compList G.nodes es' q with hB
      have hmemA := fun w => @mem_compList_iff G.nodes es' p hnd hp hep' w
      have hmemB := fun w => @mem_compList_iff G.nodes es' q hnd hq hep' w
      have hclosedA : ∀ f ∈ es', f.1 ∈ A ↔ f.2 ∈ A :=
        fun f hf => compList_edge_closed hnd hp hep' hf
      have hclosedB : ∀ f ∈ es', f.1 ∈ B ↔ f.2 ∈ B :=
        fun f hf => compList_edge_closed hnd hq hep' hf
      have hdisj : ∀ a, a ∈ A → a ∈ B → False := by
        intro a ha hb
        exact bridge_disjoint h hpq ((hmemA a).1 ha) ((hmemB a).1 hb)
      have hcover : ∀ a ∈ G.nodes, a ∈ A ∨ a ∈ B := by
        intro a ha
        rcases bridge_cover h hpq a ha with hr | hr
        · exact .inl ((hmemA a).2 hr)
        · exact .inr ((hmemB a).2 hr)
      set esA := es'.filter (fun f => decide (f.1 ∈ A)) with hesA
      set esB := es'.filter (fun f => decide (f.1 ∈ B)) with hesB
      -- the two filtered edge lists partition `es'`
      have hsplit : esA.length + esB.length = es'.length := by
        have hperm := List.filter_append_perm (fun f => decide (f.1 ∈ A)) es'
        have hcongr : es'.filter (fun f => !decide (f.1 ∈ A)) = esB := by
          apply List.filter_congr
          intro f hf
          have hfn : f.1 ∈ G.nodes := (hep' f hf).1
          rcases hcover f.1 hfn with hm | hm
          · simp [hm, show f.1 ∉ B from fun hb => hdisj f.1 hm hb]
          · simp [hm, show f.1 ∉ A from fun ha => hdisj f.1 ha hm]
        have := hperm.length_eq
        rw [List.length_append, hcongr] at this
        exact this
      -- the `A` side is itself a tree input
      have hsubA : IsTreeInput ⟨A, esA⟩ := by
        refine ⟨⟨compList_nodup _ _ hnd, ?_, ?_, ?_⟩, ?_, ?_, ?_⟩
        · intro f hf
          have hf' : f ∈ es' := List.mem_of_mem_filter hf
          have h1 : f.1 ∈ A := by simpa using List.of_mem_filter hf
          exact ⟨h1, (hclosedA f hf').1 h1, (hep f (eraseE_subset f hf')).2.2⟩
        · exact ((List.filter_sublist _).trans (eraseE_sublist _ _ _)).nodup hednd
        · intro f hf hfr
          have hf' : f ∈ G.edges := eraseE_subset f (List.mem_of_mem_filter hf)
          have hfr' : (f.2, f.1) ∈ G.edges :=
            eraseE_subset _ (List.mem_of_mem_filter hfr)
          exact hrev f hf' hfr'
        · intro h0
          have h0' : A = [] := h0
          have hself := self_mem_compList G.nodes es' p
          rw [← hA, h0'] at hself
          simp at hself
        · intro a ha w hw
          have hra : reach es' p a := (hmemA a).1 ha
          have hrw : reach es' p w := (hmemA w).1 hw
          have hr : reach es' a w := (reach_symm hra).trans hrw
          exact (reach_restrict hclosedA ha hr).2
        · intro f hf hr
          have hf' : f ∈ G.edges := eraseE_subset f (List.mem_of_mem_filter hf)
          refine h.2.2.2 f hf' (reach_mono ?_ hr)
          intro g hg
          rw [mem_eraseE] at hg ⊢
          exact ⟨eraseE_subset _ (List.mem_of_mem_filter hg.1), hg.2⟩
      -- the `B` side is itself a tree input
      have hsubB : IsTreeInput ⟨B, esB⟩ := by
        refine ⟨⟨compList_nodup _ _ hnd, ?_, ?_, ?_⟩, ?_, ?_, ?_⟩
        · intro f hf
          have hf' : f ∈ es' := List.mem_of_mem_filter hf
          have h1 : f.1 ∈ B := by simpa using List.of_mem_filter hf
          exact ⟨h1, (hclosedB f hf').1 h1, (hep f (eraseE_subset f hf')).2.2⟩
        · exact ((List.filter_sublist _).trans (eraseE_sublist _ _ _)).nodup hednd
        · intro f hf hfr
          have hf' : f ∈ G.edges := eraseE_subset f (List.mem_of_mem_filter hf)
          have hfr' : (f.2, f.1) ∈ G.edges :=
            eraseE_subset _ (List.mem_of_mem_filter hfr)
          exact hrev f hf' hfr'
        · intro h0
          have h0' : B = [] := h0
          have hself := self_mem_compList G.nodes es' q
          rw [← hB, h0'] at hself
          simp at hself
        · intro a ha w hw
          have hra : reach es' q a := (hmemB a).1 ha
          have hrw : reach es' q w := (hmemB w).1 hw
          have hr : reach es' a w := (reach_symm hra).trans hrw
          exact (reach_restrict hclosedB ha hr).2
        · intro f hf hr
          have hf' : f ∈ G.edges := eraseE_subset f (List.mem_of_mem_filter hf)
          refine h.2.2.2 f hf' (reach_mono ?_ hr)
          intro g hg
          rw [mem_eraseE] at hg ⊢
          exact ⟨eraseE_subset _ (List.mem_of_mem_filter hg.1), hg.2⟩
      have hlenA : esA.length ≤ m := by
        have h1 : esA.length ≤ es'.length := List.length_filter_le _ _
        omega
      have hlenB : esB.length ≤ m := by
        have h1 : esB.length ≤ es'.length := List.length_filter_le _ _
        omega
      have ihA := ih ⟨A, esA⟩ hlenA hsubA
      have ihB := ih ⟨B, esB⟩ hlenB hsubB
      have hszAB : A.length + B.length = G.nodes.length :=
        @bridge_sizes G h p q hpq
      have ihA' : esA.length + 1 = A.length := ihA
      have ihB' : esB.length + 1 = B.length := ihB
      rw [← hG]
      omega

theorem tree_edge_count {G : Graph} (h : IsTreeInput G) :
    G.edges.length + 1 = G.nodes.length :=
  tree_edge_count_aux G.edges.length G le_rfl h

/-! ### Exactly one root: in-degree counting -/

/-- The directed graph `T` returned by `LSO(G)`: its nodes are those of
`G` (`T.add_nodes_from(list(G.nodes))`), its edges the emitted
orientations. -/
def LSOGraph (G : Graph) : Graph := ⟨G.nodes, LSO G⟩

theorem sum_map_add (ns : List Nat) (f g : Nat → Nat) :
    (ns.map (fun w => f w + g w)).sum = (ns.map f).sum + (ns.map g).sum := by
  induction ns with
  | nil => rfl
  | cons a t ih => simp [ih]; omega

theorem sum_map_indicator_zero {a : Nat} : ∀ {ns : List Nat}, a ∉ ns →
    (ns.map (fun w => if a = w then 1 else 0)).sum = 0 := by
  intro ns
  induction ns with
  | nil => intro; rfl
  | cons b t ih =>
    intro hmem
    have hab : a ≠ b := fun hc => hmem (hc ▸ List.mem_cons_self _ _)
    simp [hab, ih (fun hc => hmem (List.mem_cons_of_mem _ hc))]

theorem sum_map_indicator {ns : List Nat} (hnd : ns.Nodup) {a : Nat} (ha : a ∈ ns) :
    (ns.map (fun w => if a = w then 1 else 0)).sum = 1 := by
  induction ns with
  | nil => simp at ha
  | cons b t ih =>
    rcases List.mem_cons.1 ha with rfl | hmem
    · have hat : a ∉ t := (List.nodup_cons.1 hnd).1
      simp [sum_map_indicator_zero hat]
    · have hab : a ≠ b := by
        rintro rfl
        exact (List.nodup_cons.1 hnd).1 hmem
      simp [hab, ih (List.nodup_cons.1 hnd).2 hmem]

theorem indeg_cons (e : Edge) (es : List Edge) (w : Nat) :
    indeg (e :: es) w = (if e.2 = w then 1 else 0) + indeg es w := by
  by_cases h : e.2 = w <;> simp [indeg, h] <;> omega

/-- The in-degrees over a duplicate-free node list containing all edge
targets sum to the number of edges. -/
theorem sum_indeg {ns : List Nat} (hnd : ns.Nodup) :
    ∀ (ds : List Edge), (∀ e ∈ ds, e.2 ∈ ns) →
      (ns.map (indeg ds)).sum = ds.length := by
  intro ds
  induction ds with
  | nil =>
    intro
    have : ns.map (indeg []) = ns.map (fun _ => 0) := by
      apply List.map_congr_left
      intro a _
      rfl
    simp [this]
  | cons e t ih =>
    intro hmem
    have h1 : ns.map (indeg (e :: t))
        = ns.map (fun w => (if e.2 = w then 1 else 0) + indeg t w) := by
      apply List.map_congr_left
      intro a _
      exact indeg_cons e t a
    rw [h1, sum_map_add, sum_map_indicator hnd (hmem e (List.mem_cons_self _ _)),
      ih (fun f hf => hmem f (List.mem_cons_of_mem _ hf))]
    simp [Nat.add_comm]

theorem sum_le_length {f : Nat → Nat} : ∀ (ns : List Nat), (∀ w ∈ ns, f w ≤ 1) →
    (ns.map f).sum ≤ ns.length := by
  intro ns
  induction ns with
  | nil => intro; simp
  | cons a t ih =>
    intro hle
    have h1 := hle a (List.mem_cons_self _ _)
    have h2 := ih (fun w hw => hle w (List.mem_cons_of_mem _ hw))
    simp only [List.map_cons, List.sum_cons, List.length_cons]
    omega

theorem all_one_of_sum {f : Nat → Nat} : ∀ (ns : List Nat), (∀ w ∈ ns, f w ≤ 1) →
    (ns.map f).sum = ns.length → ∀ w ∈ ns, f w = 1 := by
  intro ns
  induction ns with
  | nil => intro _ _ w hw; simp at hw
  | cons a t ih =>
    intro hle hsum w hw
    have h1 := hle a (List.mem_cons_self _ _)
    have h2 := sum_le_length t (fun w hw => hle w (List.mem_cons_of_mem _ hw))
    simp only [List.map_cons, List.sum_cons, List.length_cons] at hsum
    have hfa : f a = 1 := by omega
    have hts : (t.map f).sum = t.length := by omega
    rcases List.mem_cons.1 hw with rfl | hmem
    · exact hfa
    · exact ih (fun w hw => hle w (List.mem_cons_of_mem _ hw)) hts w hmem

theorem exists_unique_zero {f : Nat → Nat} : ∀ (ns : List Nat),
    (∀ w ∈ ns, f w ≤ 1) → (ns.map f).sum + 1 = ns.length →
    ∃ r ∈ ns, f r = 0 ∧ ∀ w ∈ ns, w ≠ r → f w = 1 := by
  intro ns
  induction ns with
  | nil => intro _ h; simp at h
  | cons a t ih =>
    intro hle hsum
    have h1 := hle a (List.mem_cons_self _ _)
    simp only [List.map_cons, List.sum_cons, List.length_cons] at hsum
    rcases Nat.le_one_iff_eq_zero_or_eq_one.1 h1 with hfa | hfa
    · -- the head is the root; all of the tail has in-degree 1
      refine ⟨a, List.mem_cons_self _ _, hfa, ?_⟩
      intro w hw hne
      rcases List.mem_cons.1 hw with rfl | hmem
      · exact absurd rfl hne
      · refine all_one_of_sum t (fun w hw => hle w (List.mem_cons_of_mem _ hw))
          (by omega) w hmem
    · -- the head has in-degree 1; the root is in the tail
      obtain ⟨r, hr, hfr, hall⟩ := ih (fun w hw => hle w (List.mem_cons_of_mem _ hw))
        (by omega)
      refine ⟨r, List.mem_cons_of_mem _ hr, hfr, ?_⟩
      intro w hw hne
      rcases List.mem_cons.1 hw with rfl | hmem
      · exact hfa
      · exact hall w hmem hne

theorem LSO_target_mem {G : Graph} (hWF : G.WF) :
    ∀ e ∈ LSO G, e.2 ∈ G.nodes := by
  intro e he
  rw [LSO_eq_map G hWF] at he
  obtain ⟨f, hf, rfl⟩ := List.mem_map.1 he
  have := hWF.2.1 f hf
  unfold orientEdge
  by_cases hc : (compList G.nodes (eraseE G.edges f.1 f.2) f.2).length <
      (compList G.nodes (eraseE G.edges f.1 f.2) f.1).length
  · rw [if_neg (by omega)]
    exact this.2.1
  · by_cases hc2 : (compList G.nodes (eraseE G.edges f.1 f.2) f.1).length <
        (compList G.nodes (eraseE G.edges f.1 f.2) f.2).length
    · rw [if_pos hc2]
      exact this.1
    · rw [if_neg (by omega)]
      exact this.2.1

/-- On a tree input, the orientation has exactly one node of in-degree 0
and all other nodes have in-degree exactly 1. -/
theorem LSO_unique_root {G : Graph} (h : IsTreeInput G) :
    ∃ r ∈ G.nodes, indeg (LSO G) r = 0 ∧
      ∀ w ∈ G.nodes, w ≠ r → indeg (LSO G) w = 1 := by
  have hlen : (LSO G).length = G.edges.length := by
    rw [LSO_eq_map G h.1, List.length_map]
  have hsum : (G.nodes.map (indeg (LSO G))).sum + 1 = G.nodes.length := by
    rw [sum_indeg h.1.1 (LSO G) (LSO_target_mem h.1), hlen]
    exact tree_edge_count h
  exact exists_unique_zero G.nodes (fun w _ => LSO_indeg_le_one h w) hsum

/-! ## Directed traversals

`alg2` and `alg3` consume the digraph `T` through networkx DFS/BFS
helpers (`dfs_postorder_nodes`, `dfs_preorder_nodes`, `dfs_tree`,
`descendants_at_distance`, `dag_longest_path_length`).  On the rooted
trees these algorithms operate on (each node reachable by exactly one
path), a DFS visits exactly the descendants of its source once each, in
adjacency (= edge insertion) order; we model this by extracting the
reachable subtree into an inductive forest and reading the traversals
off it.  The extraction is fuelled by `|edges| + 1`, which bounds the
depth of any arborescence. -/

/-- Successors of `x` in adjacency (insertion) order, as iterated by
`T.successors(x)` / DFS neighbor expansion. -/
def childrenOf (es : List Edge) (x : Nat) : List Nat :=
  (es.filter (fun e => e.1 = x)).map (fun e => e.2)

/-- First predecessor of `x`: `list(T.predecessors(x))[0]` (the source
of the first stored edge into `x`; 0 if none, where Python would raise). -/
def predOf (es : List Edge) (x : Nat) : Nat :=
  ((es.filter (fun e => e.2 = x)).map (fun e => e.1)).headD 0

/-- Rose-tree forests in first-child / next-sibling form: `cons x c s`
is a tree rooted at `x` with child forest `c`, followed by the sibling
forest `s`. -/
inductive Forest : Type where
  | nil : Forest
  | cons (x : Nat) (c : Forest) (s : Forest) : Forest
deriving DecidableEq, Repr

namespace Forest

/-- DFS preorder of the forest. -/
def pre : Forest → List Nat
  | nil => []
  | cons x c s => (x :: c.pre) ++ s.pre

/-- DFS postorder of the forest. -/
def post : Forest → List Nat
  | nil => []
  | cons x c s => (c.post ++ [x]) ++ s.post

/-- Roots of the trees of the forest. -/
def roots : Forest → List Nat
  | nil => []
  | cons x _ s => x :: s.roots

/-- Number of nodes. -/
def count : Forest → Nat
  | nil => 0
  | cons _ c s => 1 + c.count + s.count

/-- Number of nodes on a longest root-to-leaf path of any tree. -/
def hN : Forest → Nat
  | nil => 0
  | cons _ c s => max (1 + c.hN) s.hN

/-- Nodes at depth `i` (roots have depth 0), left to right. -/
def atDepth : Nat → Forest → List Nat
  | _, nil => []
  | 0, cons x _ s => x :: atDepth 0 s
  | i + 1, cons _ c s => atDepth i c ++ atDepth (i + 1) s

end Forest

/-- One layer of forest extraction: `rec` extracts with one unit of
fuel less. -/
def extractStep (es : List Edge) (rec : List Nat → Forest) : List Nat → Forest
  | [] => .nil
  | x :: rest => .cons x (rec (childrenOf es x)) (extractStep es rec rest)

/-- Extract the forest hanging below the listed roots, following
`childrenOf`; `fuel` bounds the recursion depth. -/
def extract (es : List Edge) : Nat → List Nat → Forest
  | 0 => fun _ => .nil
  | f + 1 => extractStep es (extract es f)

/-- `list(nx.dfs_postorder_nodes(T, source=x))` on an arborescence. -/
def dfsPostL (es : List Edge) (x : Nat) : List Nat :=
  (extract es (es.length + 1) [x]).post

/-- `list(nx.dfs_preorder_nodes(T, source=x))` on an arborescence. -/
def dfsPreL (es : List Edge) (x : Nat) : List Nat :=
  (extract es (es.length + 1) [x]).pre

/-- `len(list(nx.dfs_tree(T, x)))`: the number of nodes reachable from
`x`, i.e. the self-inclusive subtree size on an arborescence. -/
def sizeAt (es : List Edge) (x : Nat) : Nat :=
  (dfsPreL es x).length

/-- The root scan of `alg2`/`alg3`:
`root = 0; for n, d in T.in_degree(): if d == 0: root = n` — the *last*
node of in-degree 0 in node order wins. -/
def rootScan (ns : List Nat) (es : List Edge) : Nat :=
  ns.foldl (fun acc n => if indeg es n = 0 then n else acc) 0

/-! ## Scenario 2 (`alg2`) -/

/-- `if a not in l: l.append(a)`. -/
def insertNew {α : Type} [DecidableEq α] (l : List α) (a : α) : List α :=
  if a ∈ l then l else l ++ [a]

/-- Edge-attribute store `T.edges[u, v]["labels"] = k`, modelled as an
assoc list where the most recent assignment wins. -/
def setLabel (m : List (Edge × Nat)) (k : Edge) (v : Nat) : List (Edge × Nat) :=
  (k, v) :: m

def getLabel (m : List (Edge × Nat)) (k : Edge) : Option Nat :=
  (m.find? (fun p => p.1 = k)).map (fun p => p.2)

/-- The tile ("lesser-subtree sequence") built for a non-leaf `x`:
subtree sizes of every node in the preorder DFS from `x`, then
`tile.sort()` (ascending). -/
def tileOf (es : List Edge) (x : Nat) : List Nat :=
  List.insertionSort (· ≤ ·) ((dfsPreL es x).map (sizeAt es))

/-- One iteration of the `alg2` labelling loop, for node `x` of the
postorder list.  State: edge-label store, `labels`, `tiles`. -/
def alg2Step (es : List Edge) (root : Nat)
    (st : List (Edge × Nat) × List Nat × List (List Nat)) (x : Nat) :
    List (Edge × Nat) × List Nat × List (List Nat) :=
  let (em, labels, tiles) := st
  let (em', labels') :=
    if x ≠ root then
      let k := sizeAt es x
      (setLabel em (predOf es x, x) k, insertNew labels k)
    else (em, labels)
  let tiles' :=
    if childrenOf es x = [] then insertNew tiles ([] : List Nat)
    else insertNew tiles (tileOf es x)
  (em', labels', tiles')

/-- The full state after `alg2`'s labelling loop on `G`. -/
def alg2Run (G : Graph) : List (Edge × Nat) × List Nat × List (List Nat) :=
  let T := LSO G
  let root := rootScan G.nodes T
  (dfsPostL T root).foldl (alg2Step T root) ([], [], [])

/-- `alg2(G)`: `(len(labels), len(tiles))`. -/
def alg2 (G : Graph) : Nat × Nat :=
  ((alg2Run G).2.1.length, (alg2Run G).2.2.length)

/-! ## Scenario 3 (`alg3`)

`alg3` stores the subgraphs `nx.dfs_tree(T, l)` and compares them with
`nx.is_isomorphic`.  On an arborescence, `dfs_tree(T, l)` is the
out-tree below `l`, and digraph isomorphism of out-trees is exactly
rooted-tree shape isomorphism (node identities are ignored, the root is
the unique in-degree-0 node so it is preserved).  We model the stored
subgraphs by their unlabeled shapes and the isomorphism test by
equality of AHU canonical forms, which decides rooted unordered tree
isomorphism. -/

/-- Unlabeled forests (shapes), first-child / next-sibling form. -/
inductive Shape : Type where
  | nil : Shape
  | cons (c s : Shape) : Shape
deriving DecidableEq, Repr

/-- Strip the node identities from a forest. -/
def Forest.strip : Forest → Shape
  | .nil => .nil
  | .cons _ c s => .cons c.strip s.strip

/-- Lexicographic comparison of encodings, used only to canonicalize
sibling order. -/
def lexLe : List Nat → List Nat → Bool
  | [], _ => true
  | _ :: _, [] => false
  | a :: as, b :: bs => if a < b then true else if b < a then false else lexLe as bs

/-- AHU encodings of the trees of a shape forest, in sibling order:
each tree is encoded as `0 :: (sorted child encodings) ++ [1]`. -/
def Shape.canonL : Shape → List (List Nat)
  | .nil => []
  | .cons c s =>
      (0 :: (List.insertionSort (fun a b => lexLe a b = true) c.canonL).flatten ++ [1])
        :: s.canonL

/-- AHU canonical form of a shape forest: sorted encodings, flattened. -/
def canonOf (sh : Shape) : List Nat :=
  (List.insertionSort (fun a b => lexLe a b = true) sh.canonL).flatten

/-- `nx.is_isomorphic` on two stored arborescences, via canonical forms. -/
def isoB (a b : Shape) : Bool := decide (canonOf a = canonOf b)

/-- The shape of the subtree below `l`: `nx.dfs_tree(T, l)` up to node
identities. -/
def shapeAt (es : List Edge) (l : Nat) : Shape :=
  (extract es (es.length + 1) [l]).strip

/-- `nx.dag_longest_path_length(T)`: the longest directed path length
(in edges) over the whole DAG; on an arborescence, the number of edges
on a deepest root-to-leaf path. -/
def heightOf (ns : List Nat) (es : List Edge) : Nat :=
  ns.foldl (fun m x => max m ((extract es (es.length + 1) [x]).hN - 1)) 0

/-- `nx.descendants_at_distance(T, root, i)` on an arborescence: the
nodes at depth `i` below `root`. -/
def levelList (es : List Edge) (root : Nat) (i : Nat) : List Nat :=
  Forest.atDepth i (extract es (es.length + 1) [root])

/-- Step 2 of `alg3`: every node with no successors and exactly one
incoming edge gets its incoming edge labeled 1. -/
def leafPass (ns : List Nat) (es : List Edge) : List (Edge × Nat) :=
  ns.foldl (fun m x =>
    if childrenOf es x = [] ∧ indeg es x = 1
    then setLabel m (predOf es x, x) 1 else m) []

/-- One iteration of the `alg3` classification loop for node `l`.
State: counter `j`, the ever-growing list of seen subtree shapes
(`subgraphs`), and the edge-label store. -/
def alg3Step (es : List Edge) (st : Nat × List Shape × List (Edge × Nat)) (l : Nat) :
    Nat × List Shape × List (Edge × Nat) :=
  let (j, seen, lab) := st
  let p := predOf es l
  if seen = [] then
    if getLabel lab (p, l) = none then
      (j + 1, seen ++ [shapeAt es l], setLabel lab (p, l) (j + 1))
    else (j, seen ++ [shapeAt es l], lab)
  else
    if (¬ (seen.any (fun s => isoB (shapeAt es l) s)) = true) ∧
        getLabel lab (p, l) = none then
      (j + 1, seen ++ [shapeAt es l], setLabel lab (p, l) (j + 1))
    else (j, seen ++ [shapeAt es l], lab)

/-- The full state after `alg3`'s level loop on `G`: levels `h-1` down
to `1`, nodes within a level in the level-list order. -/
def alg3Run (G : Graph) : Nat × List Shape × List (Edge × Nat) :=
  let T := LSO G
  let root := rootScan G.nodes T
  let h := heightOf G.nodes T
  let lab0 := leafPass G.nodes T
  ((List.range' 1 (h - 1)).reverse).foldl
    (fun st i => (levelList T root i).foldl (alg3Step T) st) (1, [], lab0)

/-- `alg3(G)`: `return (j, j+1)`. -/
def alg3 (G : Graph) : Nat × Nat :=
  ((alg3Run G).1, (alg3Run G).1 + 1)

/-! ## Rooted-tree representation

A directed edge list `T` *represents* a rooted tree `(r, c)` (root `r`,
child forest `c`) when the successor lists of `T` agree with the forest
structure, the forest's node list is duplicate-free and enumerates `T`'s
node set, and every edge of `T` leaves a forest node.  This is the
hypothesis "the orientation is a rooted tree" of the spec, and it lets
the networkx traversals be read off the forest. -/

theorem mem_childrenOf {es : List Edge} {x y : Nat} :
    y ∈ childrenOf es x ↔ (x, y) ∈ es := by
  unfold childrenOf
  simp only [List.mem_map, List.mem_filter, decide_eq_true_eq]
  constructor
  · rintro ⟨e, ⟨he, h1⟩, rfl⟩
    have : e = (x, e.2) := by
      obtain ⟨a, b⟩ := e
      simp at h1
      simp [h1]
    rwa [← this]
  · intro h
    exact ⟨(x, y), ⟨h, rfl⟩, rfl⟩

/-- Structural agreement of the successor lists of `es` with a forest. -/
def corrB (es : List Edge) : Forest → Bool
  | .nil => true
  | .cons x c s => decide (childrenOf es x = c.roots) && corrB es c && corrB es s

/-- `T` represents the rooted tree with root `r` and child forest `c`. -/
def Represents (T : List Edge) (ns : List Nat) (r : Nat) (c : Forest) : Prop :=
  (r :: c.pre).Nodup ∧ ns.Perm (r :: c.pre) ∧
  (∀ e ∈ T, e.1 ∈ r :: c.pre) ∧ T.Nodup ∧
  corrB T (.cons r c .nil) = true

instance (T : List Edge) (ns : List Nat) (r : Nat) (c : Forest) :
    Decidable (Represents T ns r c) := by
  unfold Represents; infer_instance

namespace Forest

theorem pre_length : ∀ f : Forest, f.pre.length = f.count := by
  intro f
  induction f with
  | nil => rfl
  | cons x c s ihc ihs => simp [pre, count, ihc, ihs]; omega

theorem post_perm_pre : ∀ f : Forest, f.post.Perm f.pre := by
  intro f
  induction f with
  | nil => exact .refl _
  | cons x c s ihc ihs =>
    simp only [post, pre]
    refine List.Perm.append ?_ ihs
    refine (List.perm_append_singleton _ _).trans ?_
    exact ihc.cons x

theorem hN_le_count : ∀ f : Forest, f.hN ≤ f.count := by
  intro f
  induction f with
  | nil => exact le_rfl
  | cons x c s ihc ihs => simp [hN, count]; omega

theorem roots_subset_pre : ∀ f : Forest, ∀ x ∈ f.roots, x ∈ f.pre := by
  intro f
  induction f with
  | nil => intro x hx; exact absurd hx (by simp [roots])
  | cons y c s ihc ihs =>
    intro x hx
    rcases List.mem_cons.1 hx with rfl | hx
    · simp [pre]
    · simp only [pre, List.cons_append, List.mem_cons, List.mem_append]
      exact .inr (.inr (ihs x hx))

end Forest

/-- Rebuilding a forest from its roots via `childrenOf` returns the
forest itself, when the successor lists agree and the fuel dominates
the depth. -/
theorem extract_corr {es : List Edge} : ∀ (f : Forest) (fuel : Nat),
    corrB es f = true → f.hN ≤ fuel → extract es fuel f.roots = f := by
  intro f
  induction f with
  | nil =>
    intro fuel _ _
    have hroots : Forest.nil.roots = ([] : List Nat) := rfl
    rw [hroots]
    rcases fuel with - | fu
    · rfl
    · rfl
  | cons x c s ihc ihs =>
    intro fuel hcorr hfuel
    simp only [corrB, Bool.and_eq_true, decide_eq_true_eq] at hcorr
    obtain ⟨⟨hch, hc⟩, hs⟩ := hcorr
    simp only [Forest.hN] at hfuel
    rw [max_le_iff] at hfuel
    obtain ⟨hf1, hf2⟩ := hfuel
    rcases fuel with - | fu
    · omega
    · have hroots : (Forest.cons x c s).roots = x :: s.roots := rfl
      rw [hroots]
      show Forest.cons x (extract es fu (childrenOf es x)) (extract es (fu + 1) s.roots)
        = Forest.cons x c s
      rw [hch, ihc fu hc (by omega), ihs (fu + 1) hs (by omega)]

/-- Child forest of the (first) occurrence of `x`. -/
def findC (x : Nat) : Forest → Option Forest
  | .nil => none
  | .cons y c s => if y = x then some c else (findC x c).orElse (fun _ => findC x s)

theorem findC_some_of_mem {x : Nat} : ∀ {f : Forest}, x ∈ f.pre →
    ∃ cx, findC x f = some cx := by
  intro f
  induction f with
  | nil => intro h; simp [Forest.pre] at h
  | cons y c s ihc ihs =>
    intro h
    by_cases hyx : y = x
    · exact ⟨c, by simp [findC, hyx]⟩
    · simp only [Forest.pre, List.cons_append, List.mem_cons, List.mem_append] at h
      rcases h with rfl | h | h
      · exact absurd rfl hyx
      · obtain ⟨cx, hcx⟩ := ihc h
        exact ⟨cx, by simp [findC, hyx, hcx, Option.orElse]⟩
      · obtain ⟨cx, hcx⟩ := ihs h
        rcases hc : findC x c with - | c'
        · exact ⟨cx, by simp [findC, hyx, hc, hcx, Option.orElse]⟩
        · exact ⟨c', by simp [findC, hyx, hc, Option.orElse]⟩

theorem findC_mem_pre {x : Nat} : ∀ {f : Forest} {cx : Forest},
    findC x f = some cx → x ∈ f.pre := by
  intro f
  induction f with
  | nil => intro cx h; simp [findC] at h
  | cons y c s ihc ihs =>
    intro cx h
    simp only [findC] at h
    by_cases hyx : y = x
    · subst hyx; simp [Forest.pre]
    · rw [if_neg hyx] at h
      simp only [Forest.pre, List.cons_append, List.mem_cons, List.mem_append]
      rcases hc : findC x c with - | c'
      · rw [hc] at h
        simp [Option.orElse] at h
        exact .inr (.inr (ihs h))
      · rw [hc] at h
        exact .inr (.inl (ihc hc))

theorem findC_corr {es : List Edge} {x : Nat} : ∀ {f : Forest} {cx : Forest},
    findC x f = some cx → corrB es f = true →
    childrenOf es x = cx.roots ∧ corrB es cx = true := by
  intro f
  induction f with
  | nil => intro cx h; simp [findC] at h
  | cons y c s ihc ihs =>
    intro cx h hcorr
    simp only [corrB, Bool.and_eq_true, decide_eq_true_eq] at hcorr
    obtain ⟨⟨hch, hc⟩, hs⟩ := hcorr
    simp only [findC] at h
    by_cases hyx : y = x
    · rw [if_pos hyx] at h
      cases h
      exact ⟨hyx ▸ hch, hc⟩
    · rw [if_neg hyx] at h
      rcases hfc : findC x c with - | c'
      · rw [hfc] at h
        simp [Option.orElse] at h
        exact ihs h hs
      · rw [hfc] at h
        simp [Option.orElse] at h
        exact h ▸ ihc hfc hc

theorem findC_hN {x : Nat} : ∀ {f : Forest} {cx : Forest},
    findC x f = some cx → 1 + cx.hN ≤ f.hN := by
  intro f
  induction f with
  | nil => intro cx h; simp [findC] at h
  | cons y c s ihc ihs =>
    intro cx h
    simp only [findC] at h
    simp only [Forest.hN]
    by_cases hyx : y = x
    · rw [if_pos hyx] at h
      cases h
      omega
    · rw [if_neg hyx] at h
      rcases hfc : findC x c with - | c'
      · rw [hfc] at h
        simp [Option.orElse] at h
        have := ihs h
        omega
      · rw [hfc] at h
        simp [Option.orElse] at h
        subst h
        have := ihc hfc
        omega

theorem findC_sub_pre {x : Nat} : ∀ {f : Forest} {cx : Forest},
    findC x f = some cx → ∀ y ∈ cx.pre, y ∈ f.pre := by
  intro f
  induction f with
  | nil => intro cx h; simp [findC] at h
  | cons z c s ihc ihs =>
    intro cx h y hy
    simp only [findC] at h
    simp only [Forest.pre, List.cons_append, List.mem_cons, List.mem_append]
    by_cases hzx : z = x
    · rw [if_pos hzx] at h
      cases h
      exact .inr (.inl hy)
    · rw [if_neg hzx] at h
      rcases hfc : findC x c with - | c'
      · rw [hfc] at h
        simp [Option.orElse] at h
        exact .inr (.inr (ihs h y hy))
      · rw [hfc] at h
        simp [Option.orElse] at h
        subst h
        exact .inr (.inl (ihc hfc y hy))

/-! ### Edges, in-degrees and the root scan under `Represents` -/

namespace Forest

/-- Nodes that are not top-level roots of the forest. -/
def nonRoots : Forest → List Nat
  | nil => []
  | cons _ c s => c.pre ++ s.nonRoots

/-- The parent→child edge list of the forest, in preorder. -/
def edgeL : Forest → List Edge
  | nil => []
  | cons x c s => (c.roots.map (fun y => (x, y))) ++ c.edgeL ++ s.edgeL

theorem roots_nonroots_perm : ∀ f : Forest, (f.roots ++ f.nonRoots).Perm f.pre := by
  intro f
  induction f with
  | nil => exact .refl _
  | cons x c s ihc ihs =>
    simp only [roots, nonRoots, pre, List.cons_append]
    refine List.Perm.cons x ?_
    have h1 : (s.roots ++ (c.pre ++ s.nonRoots)).Perm ((c.pre ++ s.roots) ++ s.nonRoots) := by
      rw [← List.append_assoc]
      exact List.perm_append_comm.append_right _
    refine h1.trans ?_
    rw [List.append_assoc]
    exact ihs.append_left c.pre

theorem edgeL_snd_perm : ∀ f : Forest, (f.edgeL.map Prod.snd).Perm f.nonRoots := by
  intro f
  induction f with
  | nil => exact .refl _
  | cons x c s ihc ihs =>
    simp only [edgeL, nonRoots, List.map_append, List.map_map]
    have hfst : c.roots.map (Prod.snd ∘ fun y => ((x, y) : Edge)) = c.roots := by
      simp [Function.comp]
    rw [hfst, List.append_assoc]
    refine (List.Perm.append_left c.roots (List.Perm.append ihc ihs)).trans ?_
    rw [← List.append_assoc]
    exact (roots_nonroots_perm c).append_right s.nonRoots

theorem mem_edgeL {es : List Edge} : ∀ {f : Forest}, corrB es f = true →
    ∀ x y, ((x, y) ∈ f.edgeL ↔ x ∈ f.pre ∧ (x, y) ∈ es) := by
  intro f
  induction f with
  | nil =>
    intro _ x y
    simp [edgeL, pre]
  | cons z c s ihc ihs =>
    intro hcorr x y
    simp only [corrB, Bool.and_eq_true, decide_eq_true_eq] at hcorr
    obtain ⟨⟨hch, hc⟩, hs⟩ := hcorr
    simp only [edgeL, pre, List.cons_append, List.mem_append, List.mem_cons, List.mem_map]
    constructor
    · rintro ((⟨w, hw, hxy⟩ | hm) | hm)
      · injection hxy with h1 h2
        subst h1; subst h2
        refine ⟨.inl rfl, ?_⟩
        rw [← hch] at hw
        exact mem_childrenOf.1 hw
      · obtain ⟨h1, h2⟩ := (ihc hc x y).1 hm
        exact ⟨.inr (.inl h1), h2⟩
      · obtain ⟨h1, h2⟩ := (ihs hs x y).1 hm
        exact ⟨.inr (.inr h1), h2⟩
    · rintro ⟨(rfl | hm | hm), hes⟩
      · refine .inl (.inl ⟨y, ?_, rfl⟩)
        rw [← hch, mem_childrenOf]
        exact hes
      · exact .inl (.inr ((ihc hc x y).2 ⟨hm, hes⟩))
      · exact .inr ((ihs hs x y).2 ⟨hm, hes⟩)

end Forest

theorem Represents.corr_tree {T : List Edge} {ns : List Nat} {r : Nat} {c : Forest}
    (h : Represents T ns r c) :
    childrenOf T r = c.roots ∧ corrB T c = true := by
  have := h.2.2.2.2
  simp only [corrB, Bool.and_eq_true, decide_eq_true_eq] at this
  exact this.1

theorem Represents.edge_perm {T : List Edge} {ns : List Nat} {r : Nat} {c : Forest}
    (h : Represents T ns r c) : T.Perm (Forest.cons r c .nil).edgeL := by
  obtain ⟨hnd, hperm, hsrc, hTnd, hcorr⟩ := h
  have hpre : (Forest.cons r c .nil).pre = r :: c.pre := by
    simp [Forest.pre]
  have hmem := @Forest.mem_edgeL T (Forest.cons r c .nil) hcorr
  -- the edge list of the forest is duplicate-free
  have hsnd : ((Forest.cons r c .nil).edgeL.map Prod.snd).Perm c.pre := by
    refine (Forest.edgeL_snd_perm _).trans ?_
    simp [Forest.nonRoots]
  have hedgeLnd : (Forest.cons r c .nil).edgeL.Nodup := by
    have h1 : ((Forest.cons r c .nil).edgeL.map Prod.snd).Nodup :=
      hsnd.nodup_iff.2 (List.nodup_cons.1 hnd).2
    exact h1.of_map _
  refine (List.perm_ext_iff_of_nodup hTnd hedgeLnd).2 ?_
  intro e
  obtain ⟨x, y⟩ := e
  rw [hmem x y, hpre]
  constructor
  · intro hT
    exact ⟨hsrc _ hT, hT⟩
  · exact fun h => h.2

theorem Represents.length_eq {T : List Edge} {ns : List Nat} {r : Nat} {c : Forest}
    (h : Represents T ns r c) : T.length = c.count := by
  have h1 := h.edge_perm.length_eq
  have h2 : ((Forest.cons r c .nil).edgeL.map Prod.snd).Perm c.pre := by
    refine (Forest.edgeL_snd_perm _).trans ?_
    simp [Forest.nonRoots]
  have h3 := h2.length_eq
  rw [List.length_map] at h3
  rw [h1, h3, Forest.pre_length]

theorem indeg_eq_count (es : List Edge) (w : Nat) :
    indeg es w = (es.map Prod.snd).count w := by
  induction es with
  | nil => rfl
  | cons e t ih =>
    rw [indeg_cons, ih, List.map_cons, List.count_cons]
    by_cases h : e.2 = w
    · simp [h]
      omega
    · simp [h, fun hc => h (by simpa [eq_comm] using hc)]

theorem Represents.indeg_eq {T : List Edge} {ns : List Nat} {r : Nat} {c : Forest}
    (h : Represents T ns r c) (w : Nat) : indeg T w = c.pre.count w := by
  rw [indeg_eq_count]
  have hsnd : (T.map Prod.snd).Perm c.pre := by
    refine (h.edge_perm.map Prod.snd).trans ?_
    refine (Forest.edgeL_snd_perm _).trans ?_
    simp [Forest.nonRoots]
  exact hsnd.count_eq w

theorem Represents.indeg_root {T : List Edge} {ns : List Nat} {r : Nat} {c : Forest}
    (h : Represents T ns r c) : indeg T r = 0 := by
  rw [h.indeg_eq r, List.count_eq_zero]
  exact (List.nodup_cons.1 h.1).1

theorem Represents.indeg_nonroot {T : List Edge} {ns : List Nat} {r : Nat} {c : Forest}
    (h : Represents T ns r c) {w : Nat} (hw : w ∈ c.pre) : indeg T w = 1 := by
  rw [h.indeg_eq w]
  exact List.count_eq_one_of_mem (List.nodup_cons.1 h.1).2 hw

/-- The root scan keeps the last node whose in-degree is 0. -/
theorem foldl_keep_last (P : Nat → Prop) [DecidablePred P] : ∀ (ns : List Nat) (a : Nat),
    ns.foldl (fun acc n => if P n then n else acc) a
      = (ns.filter (fun n => decide (P n))).getLastD a := by
  intro ns
  induction ns with
  | nil => intro a; rfl
  | cons b t ih =>
    intro a
    by_cases hb : P b
    · rw [List.foldl_cons, if_pos hb, List.filter_cons, if_pos (by simpa using hb),
        List.getLastD_cons]
      exact ih b
    · rw [List.foldl_cons, if_neg hb, List.filter_cons, if_neg (by simpa using hb)]
      exact ih a

theorem filter_eq_singleton {ns : List Nat} (hnd : ns.Nodup) {r : Nat} (hr : r ∈ ns) :
    ns.filter (fun n => decide (n = r)) = [r] := by
  induction ns with
  | nil => cases hr
  | cons a t ih =>
    rw [List.filter_cons]
    by_cases ha : a = r
    · subst ha
      rw [if_pos (by simp)]
      have hat : a ∉ t := (List.nodup_cons.1 hnd).1
      have ht : t.filter (fun n => decide (n = a)) = [] := by
        rw [List.filter_eq_nil_iff]
        intro b hb
        simp only [decide_eq_true_eq]
        rintro rfl; exact hat hb
      rw [ht]
    · rw [if_neg (by simpa using ha)]
      rcases List.mem_cons.1 hr with rfl | hm
      · exact absurd rfl ha
      · exact ih (List.nodup_cons.1 hnd).2 hm

theorem rootScan_eq_getLast (ns : List Nat) (es : List Edge) :
    rootScan ns es = (ns.filter (fun n => decide (indeg es n = 0))).getLastD 0 :=
  foldl_keep_last (fun n => indeg es n = 0) ns 0

/-- On a represented rooted tree the scan finds the root. -/
theorem Represents.rootScan_eq {T : List Edge} {ns : List Nat} {r : Nat} {c : Forest}
    (h : Represents T ns r c) : rootScan ns T = r := by
  rw [rootScan_eq_getLast]
  have hfilter : ns.filter (fun n => decide (indeg T n = 0)) = ns.filter (fun n => n = r) := by
    apply List.filter_congr
    intro w hw
    have hw' : w ∈ r :: c.pre := h.2.1.mem_iff.1 hw
    rcases List.mem_cons.1 hw' with rfl | hm
    · simp [h.indeg_root]
    · have h1 := h.indeg_nonroot hm
      have h2 : w ≠ r := by
        rintro rfl
        exact (List.nodup_cons.1 h.1).1 hm
      simp [h1, h2]
  rw [hfilter]
  have hr : r ∈ ns := h.2.1.mem_iff.2 (List.mem_cons_self _ _)
  have hnd : ns.Nodup := h.2.1.nodup_iff.2 h.1
  rw [filter_eq_singleton hnd hr]
  rfl

/-! ### Extraction of represented subtrees -/

theorem pre_tree (r : Nat) (c : Forest) :
    (Forest.cons r c .nil).pre = r :: c.pre := by
  simp [Forest.pre]

theorem post_tree (r : Nat) (c : Forest) :
    (Forest.cons r c .nil).post = c.post ++ [r] := by
  simp [Forest.post]

theorem roots_eq_nil : ∀ {f : Forest}, f.roots = [] ↔ f = .nil := by
  intro f
  cases f <;> simp [Forest.roots]

theorem Represents.extract_root {T : List Edge} {ns : List Nat} {r : Nat} {c : Forest}
    (h : Represents T ns r c) :
    extract T (T.length + 1) [r] = .cons r c .nil := by
  have hfuel : (Forest.cons r c .nil).hN ≤ T.length + 1 := by
    have h1 := Forest.hN_le_count (Forest.cons r c .nil)
    have h2 : (Forest.cons r c .nil).count = 1 + c.count := by
      simp [Forest.count]
    rw [h.length_eq]
    omega
  have := extract_corr (Forest.cons r c .nil) (T.length + 1) h.2.2.2.2 hfuel
  rwa [show (Forest.cons r c .nil).roots = [r] from rfl] at this

theorem Represents.extract_node {T : List Edge} {ns : List Nat} {r : Nat} {c : Forest}
    (h : Represents T ns r c) {x : Nat} {cx : Forest}
    (hfc : findC x (.cons r c .nil) = some cx) :
    extract T (T.length + 1) [x] = .cons x cx .nil := by
  obtain ⟨hch, hcx⟩ := findC_corr hfc h.2.2.2.2
  have hcorr : corrB T (.cons x cx .nil) = true := by
    simp [corrB, hch, hcx]
  have hfuel : (Forest.cons x cx .nil).hN ≤ T.length + 1 := by
    have h1 := findC_hN hfc
    have h2 := Forest.hN_le_count (Forest.cons r c .nil)
    have h3 : (Forest.cons r c .nil).count = 1 + c.count := by
      simp [Forest.count]
    have h4 : (Forest.cons x cx .nil).hN = 1 + cx.hN := by
      simp [Forest.hN]
    have h5 : (Forest.cons r c .nil).hN = 1 + c.hN := by
      simp [Forest.hN]
    rw [h.length_eq]
    omega
  have := extract_corr (Forest.cons x cx .nil) (T.length + 1) hcorr hfuel
  rwa [show (Forest.cons x cx .nil).roots = [x] from rfl] at this

/-! ### Spec-side quantities

These definitions follow the spec's words (self-inclusive subtree size,
ascending tile signature, distinct counts) on the represented forest;
the refinement theorems below compare `alg2` against them. -/

/-- Subtree size of `x` (self-inclusive), read off the forest. -/
def specSize (f : Forest) (x : Nat) : Nat :=
  match findC x f with
  | some cx => 1 + cx.count
  | none => 0

/-- The spec's tile signature of `x`: empty for a node with no
children, otherwise the ascending multiset of subtree sizes over `x`'s
subtree (itself and all descendants). -/
def specTile (f : Forest) (x : Nat) : List Nat :=
  match findC x f with
  | some cx =>
      if cx = .nil then []
      else List.insertionSort (· ≤ ·) ((x :: cx.pre).map (specSize f))
  | none => []

/-- Number of distinct values of a list. -/
def distinctCount {α : Type} [DecidableEq α] (l : List α) : Nat := l.dedup.length

theorem distinctCount_perm {α : Type} [DecidableEq α] {l l' : List α}
    (h : l.Perm l') : distinctCount l = distinctCount l' :=
  h.dedup.length_eq

theorem Represents.sizeAt_eq {T : List Edge} {ns : List Nat} {r : Nat} {c : Forest}
    (h : Represents T ns r c) {x : Nat} (hx : x ∈ (Forest.cons r c .nil).pre) :
    sizeAt T x = specSize (.cons r c .nil) x := by
  obtain ⟨cx, hfc⟩ := findC_some_of_mem hx
  unfold sizeAt dfsPreL
  rw [h.extract_node hfc, pre_tree, specSize, hfc]
  simp [Forest.pre_length]
  omega

/-! ### The `alg2` fold, decomposed -/

theorem mem_insFold {α : Type} [DecidableEq α] :
    ∀ (l : List α) (acc : List α) (a : α),
      a ∈ l.foldl insertNew acc ↔ a ∈ acc ∨ a ∈ l := by
  intro l
  induction l with
  | nil => intro acc a; simp
  | cons b t ih =>
    intro acc a
    rw [List.foldl_cons, ih]
    unfold insertNew
    by_cases hb : b ∈ acc
    · rw [if_pos hb]
      constructor
      · rintro (h | h)
        · exact .inl h
        · exact .inr (List.mem_cons_of_mem _ h)
      · rintro (h | h)
        · exact .inl h
        · rcases List.mem_cons.1 h with rfl | h
          · exact .inl hb
          · exact .inr h
    · rw [if_neg hb]
      constructor
      · rintro (h | h)
        · rcases List.mem_append.1 h with h' | h'
          · exact .inl h'
          · rw [List.mem_singleton] at h'
            exact .inr (h' ▸ List.mem_cons_self _ _)
        · exact .inr (List.mem_cons_of_mem _ h)
      · rintro (h | h)
        · exact .inl (List.mem_append_left _ h)
        · rcases List.mem_cons.1 h with rfl | h'
          · exact .inl (List.mem_append_right _ (List.mem_singleton_self _))
          · exact .inr h'

theorem nodup_insFold {α : Type} [DecidableEq α] :
    ∀ (l : List α) (acc : List α), acc.Nodup → (l.foldl insertNew acc).Nodup := by
  intro l
  induction l with
  | nil => intro acc h; exact h
  | cons b t ih =>
    intro acc h
    rw [List.foldl_cons]
    refine ih _ ?_
    unfold insertNew
    by_cases hb : b ∈ acc
    · rwa [if_pos hb]
    · rw [if_neg hb]
      refine List.Nodup.append h (List.nodup_singleton _) ?_
      intro a ha hmem
      rw [List.mem_singleton] at hmem
      subst hmem
      exact hb ha

theorem insFold_length {α : Type} [DecidableEq α] (l : List α) :
    (l.foldl insertNew []).length = distinctCount l := by
  have h1 : (l.foldl insertNew []).Nodup := nodup_insFold l [] (List.nodup_nil)
  have h2 : l.dedup.Nodup := l.nodup_dedup
  have hperm : (l.foldl insertNew []).Perm l.dedup := by
    refine (List.perm_ext_iff_of_nodup h1 h2).2 ?_
    intro a
    rw [mem_insFold, List.mem_dedup]
    simp
  exact hperm.length_eq

/-- The value tracked by the `tiles` accumulator for a visited node. -/
def tileChoice (es : List Edge) (x : Nat) : List Nat :=
  if childrenOf es x = [] then [] else tileOf es x

theorem alg2_fold_labels (es : List Edge) (root : Nat) :
    ∀ (L : List Nat) (st : List (Edge × Nat) × List Nat × List (List Nat)),
      (L.foldl (alg2Step es root) st).2.1
        = ((L.filter (fun x => decide (x ≠ root))).map (sizeAt es)).foldl insertNew st.2.1 := by
  intro L
  induction L with
  | nil => intro st; rfl
  | cons x t ih =>
    intro st
    obtain ⟨em, labels, tiles⟩ := st
    rw [List.foldl_cons, ih, List.filter_cons]
    by_cases hx : x = root
    · rw [if_neg (by simpa using hx)]
      have hstep : (alg2Step es root (em, labels, tiles) x).2.1 = labels := by
        simp [alg2Step, hx]
      rw [hstep]
    · rw [if_pos (by simpa using hx), List.map_cons, List.foldl_cons]
      have hstep : (alg2Step es root (em, labels, tiles) x).2.1
          = insertNew labels (sizeAt es x) := by
        simp [alg2Step, hx]
      rw [hstep]

theorem alg2_fold_tiles (es : List Edge) (root : Nat) :
    ∀ (L : List Nat) (st : List (Edge × Nat) × List Nat × List (List Nat)),
      (L.foldl (alg2Step es root) st).2.2
        = (L.map (tileChoice es)).foldl insertNew st.2.2 := by
  intro L
  induction L with
  | nil => intro st; rfl
  | cons x t ih =>
    intro st
    obtain ⟨em, labels, tiles⟩ := st
    rw [List.foldl_cons, ih, List.map_cons, List.foldl_cons]
    have hstep : (alg2Step es root (em, labels, tiles) x).2.2
        = insertNew tiles (tileChoice es x) := by
      unfold tileChoice
      by_cases hx : x = root
      · subst hx
        by_cases hc : childrenOf es x = [] <;> simp [alg2Step, hc]
      · by_cases hc : childrenOf es x = [] <;> simp [alg2Step, hx, hc]
    rw [hstep]

theorem getLabel_setLabel_ne {m : List (Edge × Nat)} {k k' : Edge} {v : Nat}
    (h : k' ≠ k) : getLabel (setLabel m k' v) k = getLabel m k := by
  unfold getLabel setLabel
  rw [List.find?_cons]
  have hdec : (decide (((k', v) : Edge × Nat).1 = k)) = false := by
    simpa using h
  rw [hdec]

theorem getLabel_setLabel_self (m : List (Edge × Nat)) (k : Edge) (v : Nat) :
    getLabel (setLabel m k v) k = some v := by
  unfold getLabel setLabel
  rw [List.find?_cons]
  have hdec : (decide (((k, v) : Edge × Nat).1 = k)) = true := by simp
  rw [hdec]
  rfl

/-- Nodes other than `x` never touch the key `(pred x, x)`. -/
theorem alg2_fold_label_frame (es : List Edge) (root : Nat) {x : Nat} :
    ∀ (L : List Nat), (∀ y ∈ L, y ≠ x) →
      ∀ (st : List (Edge × Nat) × List Nat × List (List Nat)),
      getLabel (L.foldl (alg2Step es root) st).1 (predOf es x, x)
        = getLabel st.1 (predOf es x, x) := by
  intro L
  induction L with
  | nil => intro _ st; rfl
  | cons y t ih =>
    intro hne st
    obtain ⟨em, labels, tiles⟩ := st
    rw [List.foldl_cons, ih (fun z hz => hne z (List.mem_cons_of_mem _ hz))]
    by_cases hy : y = root
    · have hstep : (alg2Step es root (em, labels, tiles) y).1 = em := by
        simp [alg2Step, hy]
      rw [hstep]
    · have hstep : (alg2Step es root (em, labels, tiles) y).1
          = setLabel em (predOf es y, y) (sizeAt es y) := by
        simp [alg2Step, hy]
      rw [hstep]
      refine getLabel_setLabel_ne ?_
      intro hc
      exact hne y (List.mem_cons_self _ _) (congrArg Prod.snd hc)

/-- Every non-root node's parent edge carries its subtree size after
the `alg2` loop. -/
theorem alg2_fold_label_set (es : List Edge) (root : Nat) {x : Nat} (hx : x ≠ root) :
    ∀ (L : List Nat), L.Nodup → x ∈ L →
      ∀ (st : List (Edge × Nat) × List Nat × List (List Nat)),
      getLabel (L.foldl (alg2Step es root) st).1 (predOf es x, x)
        = some (sizeAt es x) := by
  intro L
  induction L with
  | nil => intro _ hmem; simp at hmem
  | cons y t ih =>
    intro hnd hmem st
    obtain ⟨em, labels, tiles⟩ := st
    rcases List.mem_cons.1 hmem with rfl | hmem'
    · rw [List.foldl_cons]
      have hframe := @alg2_fold_label_frame es root x t
        (fun z hz hc => (List.nodup_cons.1 hnd).1 (hc ▸ hz))
      rw [hframe]
      have hstep : (alg2Step es root (em, labels, tiles) x).1
          = setLabel em (predOf es x, x) (sizeAt es x) := by
        simp [alg2Step, hx]
      rw [hstep, getLabel_setLabel_self]
    · rw [List.foldl_cons]
      exact ih (List.nodup_cons.1 hnd).2 hmem' _

theorem Represents.tileChoice_eq {G : Graph} {r : Nat} {c : Forest}
    (h : Represents (LSO G) G.nodes r c) {x : Nat}
    (hx : x ∈ (Forest.cons r c .nil).pre) :
    tileChoice (LSO G) x = specTile (.cons r c .nil) x := by
  obtain ⟨cx, hfc⟩ := findC_some_of_mem hx
  obtain ⟨hch, -⟩ := findC_corr hfc h.2.2.2.2
  have hspec : specTile (.cons r c .nil) x
      = if cx = .nil then []
        else List.insertionSort (· ≤ ·) ((x :: cx.pre).map (specSize (.cons r c .nil))) := by
    unfold specTile
    rw [hfc]
  rw [hspec]
  unfold tileChoice
  rw [hch]
  by_cases hnil : cx = Forest.nil
  · subst hnil
    rw [if_pos (show Forest.nil.roots = ([] : List Nat) from rfl), if_pos rfl]
  · rw [if_neg (fun hc => hnil (roots_eq_nil.1 hc)), if_neg hnil]
    unfold tileOf
    congr 1
    have hpre : dfsPreL (LSO G) x = x :: cx.pre := by
      unfold dfsPreL
      rw [h.extract_node hfc, pre_tree]
    rw [hpre]
    apply List.map_congr_left
    intro y hy
    rcases List.mem_cons.1 hy with rfl | hy'
    · exact h.sizeAt_eq hx
    · exact h.sizeAt_eq (findC_sub_pre hfc y hy')

/-- Central refinement of `alg2`: on a represented rooted tree, the
returned pair counts the distinct spec-side subtree sizes of the
non-root nodes and the distinct spec-side tile signatures of all nodes,
and every non-root node's parent edge is labeled with its subtree
size. -/
theorem alg2_spec {G : Graph} {r : Nat} {c : Forest}
    (h : Represents (LSO G) G.nodes r c) :
    alg2 G = (distinctCount (c.pre.map (specSize (.cons r c .nil))),
              distinctCount ((r :: c.pre).map (specTile (.cons r c .nil)))) ∧
    ∀ x ∈ c.pre, getLabel (alg2Run G).1 (predOf (LSO G) x, x)
        = some (specSize (.cons r c .nil) x) := by
  have hpostL : dfsPostL (LSO G) r = c.post ++ [r] := by
    unfold dfsPostL
    rw [h.extract_root, post_tree]
  have hrun : alg2Run G
      = (c.post ++ [r]).foldl (alg2Step (LSO G) r) ([], [], []) := by
    show (dfsPostL (LSO G) (rootScan G.nodes (LSO G))).foldl
        (alg2Step (LSO G) (rootScan G.nodes (LSO G))) ([], [], []) = _
    rw [h.rootScan_eq, hpostL]
  have hrnotin : r ∉ c.pre := (List.nodup_cons.1 h.1).1
  have hpostmem : ∀ x ∈ c.post, x ∈ c.pre :=
    fun x hx => (Forest.post_perm_pre c).mem_iff.1 hx
  have hprememf : ∀ x ∈ c.pre, x ∈ (Forest.cons r c .nil).pre := by
    intro x hx
    rw [pre_tree]
    exact List.mem_cons_of_mem _ hx
  have hrmemf : r ∈ (Forest.cons r c .nil).pre := by
    rw [pre_tree]; exact List.mem_cons_self _ _
  constructor
  · unfold alg2
    rw [hrun]
    -- labels component
    have hlab := alg2_fold_labels (LSO G) r (c.post ++ [r]) ([], [], [])
    have hfilter : (c.post ++ [r]).filter (fun x => decide (x ≠ r)) = c.post := by
      rw [List.filter_append]
      have h1 : ([r] : List Nat).filter (fun x => decide (x ≠ r)) = [] := by simp
      have h2 : c.post.filter (fun x => decide (x ≠ r)) = c.post := by
        rw [List.filter_eq_self]
        intro a ha
        simp only [decide_eq_true_eq]
        intro hc
        exact hrnotin (hc ▸ hpostmem a ha)
      rw [h1, h2, List.append_nil]
    have hmaps : c.post.map (sizeAt (LSO G))
        = c.post.map (specSize (.cons r c .nil)) := by
      apply List.map_congr_left
      intro y hy
      exact h.sizeAt_eq (hprememf y (hpostmem y hy))
    have hlab2 : ((c.post ++ [r]).foldl (alg2Step (LSO G) r) ([], [], [])).2.1.length
        = distinctCount (c.pre.map (specSize (.cons r c .nil))) := by
      rw [hlab, hfilter, hmaps, insFold_length]
      exact distinctCount_perm ((Forest.post_perm_pre c).map _)
    -- tiles component
    have htls := alg2_fold_tiles (LSO G) r (c.post ++ [r]) ([], [], [])
    have hmapt : (c.post ++ [r]).map (tileChoice (LSO G))
        = (c.post ++ [r]).map (specTile (.cons r c .nil)) := by
      apply List.map_congr_left
      intro y hy
      rcases List.mem_append.1 hy with hy' | hy'
      · exact h.tileChoice_eq (hprememf y (hpostmem y hy'))
      · rw [List.mem_singleton] at hy'
        subst hy'
        exact h.tileChoice_eq hrmemf
    have htls2 : ((c.post ++ [r]).foldl (alg2Step (LSO G) r) ([], [], [])).2.2.length
        = distinctCount ((r :: c.pre).map (specTile (.cons r c .nil))) := by
      rw [htls, hmapt, insFold_length]
      refine distinctCount_perm (List.Perm.map _ ?_)
      refine (List.perm_append_singleton _ _).trans ?_
      exact (Forest.post_perm_pre c).cons r
    rw [hlab2, htls2]
  · intro x hx
    have hxr : x ≠ r := fun hc => hrnotin (hc ▸ hx)
    have hxmem : x ∈ c.post ++ [r] := by
      refine List.mem_append_left _ ?_
      exact (Forest.post_perm_pre c).mem_iff.2 hx
    have hnd : (c.post ++ [r]).Nodup := by
      refine List.Perm.nodup_iff ?_ |>.2 h.1
      refine (List.perm_append_singleton _ _).trans ?_
      exact (Forest.post_perm_pre c).cons r
    rw [hrun, alg2_fold_label_set (LSO G) r hxr (c.post ++ [r]) hnd hxmem,
      h.sizeAt_eq (hprememf x hx)]

theorem Represents.alg2Run_eq {G : Graph} {r : Nat} {c : Forest}
    (h : Represents (LSO G) G.nodes r c) :
    alg2Run G = (c.post ++ [r]).foldl (alg2Step (LSO G) r) ([], [], []) := by
  have hpostL : dfsPostL (LSO G) r = c.post ++ [r] := by
    unfold dfsPostL
    rw [h.extract_root, post_tree]
  show (dfsPostL (LSO G) (rootScan G.nodes (LSO G))).foldl
      (alg2Step (LSO G) (rootScan G.nodes (LSO G))) ([], [], []) = _
  rw [h.rootScan_eq, hpostL]

theorem two_le_length_of_two_mem {α : Type} {l : List α} {a b : α}
    (ha : a ∈ l) (hb : b ∈ l) (hab : a ≠ b) : 2 ≤ l.length := by
  rcases l with - | ⟨x, - | ⟨y, t⟩⟩
  · simp at ha
  · rw [List.mem_singleton] at ha hb
    exact absurd (ha.trans hb.symm) hab
  · simp only [List.length_cons]
    omega

/-- Every nonempty forest with duplicate-free nodes contains a node
with no children. -/
theorem exists_leaf : ∀ (f : Forest), f ≠ .nil → f.pre.Nodup →
    ∃ x, x ∈ f.pre ∧ findC x f = some .nil := by
  intro f
  induction f with
  | nil => intro h _; exact absurd rfl h
  | cons x c s ihc ihs =>
    intro _ hnd
    have hpre : (Forest.cons x c s).pre = (x :: c.pre) ++ s.pre := rfl
    rw [hpre] at hnd
    have hnd1 : (x :: c.pre).Nodup := hnd.of_append_left
    have hxc : x ∉ c.pre := (List.nodup_cons.1 hnd1).1
    rcases hc : c with - | ⟨y, cc, cs⟩
    · refine ⟨x, ?_, ?_⟩
      · simp [Forest.pre]
      · simp [findC]
    · rw [← hc]
      have hcne : c ≠ .nil := by rw [hc]; intro hcontra; cases hcontra
      obtain ⟨z, hz, hfz⟩ := ihc hcne (List.nodup_cons.1 hnd1).2
      refine ⟨z, ?_, ?_⟩
      · rw [hpre]
        exact List.mem_append_left _ (List.mem_cons_of_mem _ hz)
      · have hxz : x ≠ z := fun hcontra => hxc (hcontra ▸ hz)
        simp [findC, hxz, hfz, Option.orElse]

/-! ## Claim theorems -/

/-- C1: for every edge `(u, v)` of the input graph, in enumeration
order, `LSO` computes the component sizes `l1` (of `u`) and `l2` (of
`v`) in the graph with exactly that edge removed, emits `(v, u)` when
`l2 > l1` and `(u, v)` otherwise; in particular a tie `l1 = l2` emits
exactly `(u, v)`. -/
theorem claim_C1 (G : Graph) (hWF : G.WF) (i : Nat) (hi : i < G.edges.length) :
    (LSO G)[i]? = some (orientEdge G.nodes G.edges G.edges[i]) ∧
    orientEdge G.nodes G.edges G.edges[i] =
      (if (compList G.nodes (eraseE G.edges G.edges[i].1 G.edges[i].2) G.edges[i].2).length >
          (compList G.nodes (eraseE G.edges G.edges[i].1 G.edges[i].2) G.edges[i].1).length
       then (G.edges[i].2, G.edges[i].1) else G.edges[i]) ∧
    ((compList G.nodes (eraseE G.edges G.edges[i].1 G.edges[i].2) G.edges[i].1).length =
     (compList G.nodes (eraseE G.edges G.edges[i].1 G.edges[i].2) G.edges[i].2).length →
      (LSO G)[i]? = some G.edges[i]) := by
  have h1 : (LSO G)[i]? = some (orientEdge G.nodes G.edges G.edges[i]) := by
    rw [LSO_eq_map G hWF, List.getElem?_map, List.getElem?_eq_getElem hi]
    rfl
  refine ⟨h1, rfl, ?_⟩
  intro heq
  rw [h1]
  congr 1
  unfold orientEdge
  rw [if_neg (by omega)]

/-- Witness for C1 on the single-edge graph, whose edge removal ties
the two component sizes, so the edge is kept as `(1, 2)`. -/
theorem claim_C1_witness :
    (⟨[1, 2], [(1, 2)]⟩ : Graph).WF ∧ (0 : Nat) < 1 ∧
    (compList [1, 2] (eraseE [(1, 2)] 1 2) 1).length
      = (compList [1, 2] (eraseE [(1, 2)] 1 2) 2).length ∧
    (LSO ⟨[1, 2], [(1, 2)]⟩)[0]? = some (1, 2) :=
  ⟨by decide, by decide, by decide, by
    have h := claim_C1 ⟨[1, 2], [(1, 2)]⟩ (by decide) 0 (by decide)
    exact h.2.2 (by decide)⟩

/-- C2 counterexample: the triangle `1-2-3` is a connected simple
graph, but its orientation gives node 3 in-degree 2, so it is not true
that every node other than the root has in-degree exactly 1. -/
theorem claim_C2_counterexample :
    (⟨[1, 2, 3], [(1, 2), (2, 3), (1, 3)]⟩ : Graph).WF ∧
    (∀ u ∈ [1, 2, 3], ∀ w ∈ [1, 2, 3],
      w ∈ compList [1, 2, 3] [(1, 2), (2, 3), (1, 3)] u) ∧
    3 ∈ ([1, 2, 3] : List Nat) ∧
    indeg (LSO ⟨[1, 2, 3], [(1, 2), (2, 3), (1, 3)]⟩) 3 = 2 := by decide

/-- C2 (amended): for every connected simple input graph in which
every edge is a bridge (i.e. a tree), the directed graph returned by
`LSO` has exactly the input's nodes, exactly one node of in-degree 0,
and every other node has in-degree exactly 1. -/
theorem claim_C2 (G : Graph) (h : isTreeInputB G) :
    (LSOGraph G).nodes = G.nodes ∧
    ∃ r ∈ G.nodes, indeg (LSO G) r = 0 ∧
      ∀ w ∈ G.nodes, w ≠ r → indeg (LSO G) w = 1 :=
  ⟨rfl, LSO_unique_root (isTreeInput_of_B h)⟩

theorem claim_C2_witness :
    isTreeInputB ⟨[1, 2, 3], [(1, 2), (2, 3)]⟩ ∧
    ((LSOGraph ⟨[1, 2, 3], [(1, 2), (2, 3)]⟩).nodes = [1, 2, 3] ∧
      ∃ r ∈ [1, 2, 3], indeg (LSO ⟨[1, 2, 3], [(1, 2), (2, 3)]⟩) r = 0 ∧
        ∀ w ∈ [1, 2, 3], w ≠ r → indeg (LSO ⟨[1, 2, 3], [(1, 2), (2, 3)]⟩) w = 1) :=
  ⟨by decide, claim_C2 ⟨[1, 2, 3], [(1, 2), (2, 3)]⟩ (by decide)⟩

/-- C5: `alg3` always returns `(j, j + 1)`: the tile count is the
bond-edge-type count plus exactly one. -/
theorem claim_C5 (G : Graph) : (alg3 G).2 = (alg3 G).1 + 1 := rfl

/-- C6 counterexample: on a disconnected input (no `DisconnectedGraph`
error exists in the code) `LSO` still orients every edge and returns a
directed graph. -/
theorem claim_C6_counterexample :
    (¬ ∀ u ∈ [1, 2, 3, 4], ∀ w ∈ [1, 2, 3, 4],
        w ∈ compList [1, 2, 3, 4] [(1, 2), (3, 4)] u) ∧
    LSO ⟨[1, 2, 3, 4], [(1, 2), (3, 4)]⟩ = [(1, 2), (3, 4)] := by decide

/-- C6 (amended): `LSO` performs no connectivity check: for every
well-formed input, connected or not, it returns one directed edge per
input edge, each oriented by the component-size rule. -/
theorem claim_C6 (G : Graph) (hWF : G.WF) :
    (LSO G).length = G.edges.length ∧
    LSO G = G.edges.map (orientEdge G.nodes G.edges) :=
  ⟨by rw [LSO_eq_map G hWF, List.length_map], LSO_eq_map G hWF⟩

theorem claim_C6_witness :
    (LSO ⟨[1, 2, 3, 4], [(1, 2), (3, 4)]⟩).length
        = ([(1, 2), (3, 4)] : List Edge).length ∧
    LSO ⟨[1, 2, 3, 4], [(1, 2), (3, 4)]⟩
        = ([(1, 2), (3, 4)] : List Edge).map (orientEdge [1, 2, 3, 4] [(1, 2), (3, 4)]) :=
  claim_C6 ⟨[1, 2, 3, 4], [(1, 2), (3, 4)]⟩ (by decide)

/-- C7 counterexample: on an input whose orientation has two nodes of
in-degree 0, no `MalformedOrientation` error is raised; both `alg2`
and `alg3` silently pick a root and produce counts. -/
theorem claim_C7_counterexample :
    (([1, 2, 3, 4] : List Nat).filter
        (fun w => decide (indeg (LSO ⟨[1, 2, 3, 4], [(1, 2), (3, 4)]⟩) w = 0))).length = 2 ∧
    alg2 ⟨[1, 2, 3, 4], [(1, 2), (3, 4)]⟩ = (1, 2) ∧
    alg3 ⟨[1, 2, 3, 4], [(1, 2), (3, 4)]⟩ = (1, 2) := by decide

/-- C7 (amended): the root-finding scan raises nothing; it silently
returns the *last* node in node order whose in-degree is 0, or the
default `0` when no such node exists, and the computation proceeds to
produce counts. -/
theorem claim_C7 (ns : List Nat) (es : List Edge) :
    rootScan ns es = (ns.filter (fun n => decide (indeg es n = 0))).getLastD 0 :=
  rootScan_eq_getLast ns es

/-- C8: the per-edge removal in `LSO` is transient: at every step of
the loop the working edge set of `G` is a permutation of (hence equal
as a set to) the original edge set, and after `LSO` returns, the
input's edge set is restored.  (The node set is never touched: the loop
only calls `remove_edge`/`add_edge`, modelled by the edge-list state.) -/
theorem claim_C8 (G : Graph) (hWF : G.WF) :
    (∀ k : Nat,
      (((G.edges.take k).foldl (lsoStep G.nodes) (G.edges, [])).1).Perm G.edges) ∧
    (lsoFinal G).Perm G.edges :=
  ⟨fun k => (lsoRun_invariant G hWF k).1, lsoFinal_perm G hWF⟩

theorem claim_C8_witness :
    ((((⟨[1, 2, 3], [(1, 2), (2, 3)]⟩ : Graph).edges.take 1).foldl
        (lsoStep [1, 2, 3]) ([(1, 2), (2, 3)], [])).1).Perm [(1, 2), (2, 3)] ∧
    (lsoFinal ⟨[1, 2, 3], [(1, 2), (2, 3)]⟩).Perm [(1, 2), (2, 3)] :=
  ⟨(claim_C8 ⟨[1, 2, 3], [(1, 2), (2, 3)]⟩ (by decide)).1 1,
   (claim_C8 ⟨[1, 2, 3], [(1, 2), (2, 3)]⟩ (by decide)).2⟩

/-- C3: on an input of at least 2 nodes whose orientation is a rooted
tree, `alg2` labels every non-root node's parent edge with that node's
self-inclusive subtree size, and returns the number of distinct subtree
sizes over the non-root nodes together with the number of distinct tile
signatures (empty for childless nodes, otherwise the ascending sequence
of subtree sizes over the node's whole subtree, deduplicated by value
equality). -/
theorem claim_C3 (G : Graph) (r : Nat) (c : Forest) (hn : 2 ≤ G.nodes.length)
    (h : Represents (LSO G) G.nodes r c) :
    (∀ x ∈ c.pre, getLabel (alg2Run G).1 (predOf (LSO G) x, x)
        = some (specSize (.cons r c .nil) x)) ∧
    alg2 G = (distinctCount (c.pre.map (specSize (.cons r c .nil))),
              distinctCount ((r :: c.pre).map (specTile (.cons r c .nil)))) :=
  ⟨(alg2_spec h).2, (alg2_spec h).1⟩

theorem claim_C3_witness :
    (∀ x ∈ (Forest.cons 1 .nil (Forest.cons 3 .nil .nil)).pre,
      getLabel (alg2Run ⟨[1, 2, 3], [(1, 2), (2, 3)]⟩).1
          (predOf (LSO ⟨[1, 2, 3], [(1, 2), (2, 3)]⟩) x, x)
        = some (specSize (.cons 2 (Forest.cons 1 .nil (Forest.cons 3 .nil .nil)) .nil) x)) ∧
    alg2 ⟨[1, 2, 3], [(1, 2), (2, 3)]⟩
      = (distinctCount ((Forest.cons 1 .nil (Forest.cons 3 .nil .nil)).pre.map
            (specSize (.cons 2 (Forest.cons 1 .nil (Forest.cons 3 .nil .nil)) .nil))),
         distinctCount ((2 :: (Forest.cons 1 .nil (Forest.cons 3 .nil .nil)).pre).map
            (specTile (.cons 2 (Forest.cons 1 .nil (Forest.cons 3 .nil .nil)) .nil)))) :=
  claim_C3 ⟨[1, 2, 3], [(1, 2), (2, 3)]⟩ 2 (Forest.cons 1 .nil (Forest.cons 3 .nil .nil))
    (by decide) (by decide)

/-- C10: on a connected input of at least 2 nodes whose orientation is
a rooted tree, the tile catalog of `alg2` contains the empty signature
(of a leaf) and a non-empty signature (of the root), so the tile count
is at least 2. -/
theorem claim_C10 (G : Graph) (r : Nat) (c : Forest) (hWF : G.WF)
    (hconn : ∀ u ∈ G.nodes, ∀ w ∈ G.nodes, w ∈ compList G.nodes G.edges u)
    (hn : 2 ≤ G.nodes.length) (h : Represents (LSO G) G.nodes r c) :
    ([] ∈ (alg2Run G).2.2) ∧ (∃ t ∈ (alg2Run G).2.2, t ≠ []) ∧ 2 ≤ (alg2 G).2 := by
  have hcnil : c ≠ .nil := by
    intro hcontra
    have hlen := h.2.1.length_eq
    rw [hcontra] at hlen
    simp [Forest.pre] at hlen
    omega
  have hpostperm : (c.post ++ [r]).Perm (r :: c.pre) :=
    (List.perm_append_singleton _ _).trans ((Forest.post_perm_pre c).cons r)
  have htiles : (alg2Run G).2.2
      = ((c.post ++ [r]).map (tileChoice (LSO G))).foldl insertNew [] := by
    rw [h.alg2Run_eq, alg2_fold_tiles]
  -- a leaf contributes the empty signature
  have hfnd : (Forest.cons r c .nil).pre.Nodup := by
    rw [pre_tree]; exact h.1
  obtain ⟨xl, hxl, hfxl⟩ := exists_leaf (Forest.cons r c .nil) (by intro hcontra; cases hcontra) hfnd
  have hxl' : xl ∈ c.post ++ [r] := by
    refine hpostperm.mem_iff.2 ?_
    rwa [pre_tree] at hxl
  have htl : tileChoice (LSO G) xl = [] := by
    rw [h.tileChoice_eq hxl]
    unfold specTile
    rw [hfxl]
    simp
  have hmem1 : ([] : List Nat) ∈ (alg2Run G).2.2 := by
    rw [htiles]
    have hmm : tileChoice (LSO G) xl ∈ (c.post ++ [r]).map (tileChoice (LSO G)) :=
      List.mem_map_of_mem _ hxl'
    rw [htl] at hmm
    exact (mem_insFold _ _ _).2 (.inr hmm)
  -- the root contributes a non-empty signature
  have hfr : findC r (Forest.cons r c .nil) = some c := by
    simp [findC]
  have hspec : specTile (.cons r c .nil) r
      = if c = .nil then []
        else List.insertionSort (· ≤ ·) ((r :: c.pre).map (specSize (.cons r c .nil))) := by
    unfold specTile
    rw [hfr]
  have hrt : tileChoice (LSO G) r
      = List.insertionSort (· ≤ ·) ((r :: c.pre).map (specSize (.cons r c .nil))) := by
    rw [h.tileChoice_eq (by rw [pre_tree]; exact List.mem_cons_self _ _), hspec,
      if_neg hcnil]
  have hrtne : tileChoice (LSO G) r ≠ [] := by
    rw [hrt]
    intro hcontra
    have := (List.perm_insertionSort (· ≤ ·) ((r :: c.pre).map (specSize (.cons r c .nil)))).length_eq
    rw [hcontra] at this
    simp at this
  have hmem2 : tileChoice (LSO G) r ∈ (alg2Run G).2.2 := by
    rw [htiles]
    refine (mem_insFold _ _ _).2 (.inr ?_)
    refine List.mem_map_of_mem _ ?_
    exact List.mem_append_right _ (List.mem_singleton_self _)
  refine ⟨hmem1, ⟨_, hmem2, hrtne⟩, ?_⟩
  show 2 ≤ (alg2Run G).2.2.length
  exact two_le_length_of_two_mem hmem1 hmem2 (fun hc => hrtne hc.symm)

theorem claim_C10_witness :
    ([] ∈ (alg2Run ⟨[1, 2], [(1, 2)]⟩).2.2) ∧
    (∃ t ∈ (alg2Run ⟨[1, 2], [(1, 2)]⟩).2.2, t ≠ []) ∧
    2 ≤ (alg2 ⟨[1, 2], [(1, 2)]⟩).2 :=
  claim_C10 ⟨[1, 2], [(1, 2)]⟩ 1 (Forest.cons 2 .nil .nil) (by decide) (by decide)
    (by decide) (by decide)

theorem leafPass_frame (es : List Edge) {x : Nat} :
    ∀ (L : List Nat) (m : List (Edge × Nat)),
      getLabel m (predOf es x, x) = some 1 →
      getLabel (L.foldl (fun m x =>
        if childrenOf es x = [] ∧ indeg es x = 1
        then setLabel m (predOf es x, x) 1 else m) m) (predOf es x, x) = some 1 := by
  intro L
  induction L with
  | nil => intro m hm; exact hm
  | cons y t ih =>
    intro m hm
    rw [List.foldl_cons]
    refine ih _ ?_
    by_cases hy : childrenOf es y = [] ∧ indeg es y = 1
    · rw [if_pos hy]
      by_cases hxy : y = x
      · subst hxy
        exact getLabel_setLabel_self _ _ _
      · rw [getLabel_setLabel_ne (fun hc => hxy (congrArg Prod.snd hc))]
        exact hm
    · rwa [if_neg hy]

theorem leafPass_label (es : List Edge) {x : Nat} :
    ∀ (L : List Nat) (m : List (Edge × Nat)), x ∈ L →
      childrenOf es x = [] → indeg es x = 1 →
      getLabel (L.foldl (fun m x =>
        if childrenOf es x = [] ∧ indeg es x = 1
        then setLabel m (predOf es x, x) 1 else m) m) (predOf es x, x) = some 1 := by
  intro L
  induction L with
  | nil => intro m hm; simp at hm
  | cons y t ih =>
    intro m hmem hch hdeg
    rcases List.mem_cons.1 hmem with rfl | hmem'
    · rw [List.foldl_cons, if_pos ⟨hch, hdeg⟩]
      exact leafPass_frame es t _ (getLabel_setLabel_self _ _ _)
    · rw [List.foldl_cons]
      exact ih _ hmem' hch hdeg

/-- C4: in `alg3`, every leaf (no successors, one incoming edge) has
its incoming edge labeled 1 by the first pass; then, in the level loop,
a node `l` whose incoming edge is still unlabeled gets the counter
incremented and the fresh label exactly when the seen list is empty or
`l`'s subtree shape is isomorphic to none of the seen shapes, and `l`'s
shape is appended to the seen list regardless of the outcome. -/
theorem claim_C4 :
    (∀ (G : Graph) (x : Nat), x ∈ G.nodes →
      childrenOf (LSO G) x = [] → indeg (LSO G) x = 1 →
      getLabel (leafPass G.nodes (LSO G)) (predOf (LSO G) x, x) = some 1) ∧
    (∀ (es : List Edge) (j : Nat) (seen : List Shape) (lab : List (Edge × Nat)) (l : Nat),
      getLabel lab (predOf es l, l) = none →
      alg3Step es (j, seen, lab) l =
        (if seen = [] ∨ ¬ (seen.any (fun s => isoB (shapeAt es l) s)) = true
         then j + 1 else j,
         seen ++ [shapeAt es l],
         if seen = [] ∨ ¬ (seen.any (fun s => isoB (shapeAt es l) s)) = true
         then setLabel lab (predOf es l, l) (j + 1) else lab)) := by
  constructor
  · intro G x hx hch hdeg
    exact leafPass_label (LSO G) G.nodes [] hx hch hdeg
  · intro es j seen lab l hlab
    by_cases hseen : seen = []
    · subst hseen
      simp [alg3Step, hlab]
    · by_cases hany : (seen.any (fun s => isoB (shapeAt es l) s)) = true
      · simp [alg3Step, hseen, hany, hlab]
      · simp [alg3Step, hseen, hany, hlab]

theorem claim_C4_witness :
    (getLabel (leafPass [1, 2, 3, 4] (LSO ⟨[1, 2, 3, 4], [(1, 2), (1, 3), (3, 4)]⟩))
        (predOf (LSO ⟨[1, 2, 3, 4], [(1, 2), (1, 3), (3, 4)]⟩) 2, 2) = some 1) ∧
    alg3Step [(1, 2), (1, 3), (3, 4)] (1, [], []) 3 =
      (if ([] : List Shape) = [] ∨
          ¬ (([] : List Shape).any
              (fun s => isoB (shapeAt [(1, 2), (1, 3), (3, 4)] 3) s)) = true
       then 1 + 1 else 1,
       ([] : List Shape) ++ [shapeAt [(1, 2), (1, 3), (3, 4)] 3],
       if ([] : List Shape) = [] ∨
          ¬ (([] : List Shape).any
              (fun s => isoB (shapeAt [(1, 2), (1, 3), (3, 4)] 3) s)) = true
       then setLabel [] (predOf [(1, 2), (1, 3), (3, 4)] 3, 3) (1 + 1) else []) :=
  ⟨claim_C4.1 ⟨[1, 2, 3, 4], [(1, 2), (1, 3), (3, 4)]⟩ 2 (by decide) (by decide) (by decide),
   claim_C4.2 [(1, 2), (1, 3), (3, 4)] 1 [] [] 3 (by decide)⟩

/-! ## Path graphs (C9)

The path graph on `n` nodes: nodes `1..n`, edges `(i, i+1)` in order.
Removing edge `(i, i+1)` splits it into `{1..i}` and `{i+1..n}`, so the
orientation points edge `i` toward the smaller side: `(i+1, i)` when
`n > 2i`, else `(i, i+1)`.  The orientation is the two-armed tree rooted
at `r = (n+1)/2`. -/

def pathGraph (n : Nat) : Graph :=
  ⟨List.range' 1 n, (List.range' 1 (n - 1)).map (fun i => (i, i + 1))⟩

/-- The expected orientation of the path. -/
def pathT (n : Nat) : List Edge :=
  (List.range' 1 (n - 1)).map (fun i => if n > 2 * i then (i + 1, i) else (i, i + 1))

theorem mem_pathEdges {n : Nat} {e : Edge} :
    e ∈ (pathGraph n).edges ↔ 1 ≤ e.1 ∧ e.1 ≤ n - 1 ∧ e.2 = e.1 + 1 := by
  show e ∈ (List.range' 1 (n - 1)).map (fun i => (i, i + 1)) ↔ _
  rw [List.mem_map]
  constructor
  · rintro ⟨i, hi, rfl⟩
    rw [List.mem_range'_1] at hi
    exact ⟨hi.1, by omega, rfl⟩
  · rintro ⟨h1, h2, h3⟩
    refine ⟨e.1, ?_, ?_⟩
    · rw [List.mem_range'_1]
      omega
    · obtain ⟨a, b⟩ := e
      simp only at h3
      rw [h3]

theorem pathGraph_WF (n : Nat) : (pathGraph n).WF := by
  refine ⟨List.nodup_range' _ _, ?_, ?_, ?_⟩
  · intro e he
    rw [mem_pathEdges] at he
    constructor
    · show e.1 ∈ List.range' 1 n
      rw [List.mem_range'_1]
      omega
    constructor
    · show e.2 ∈ List.range' 1 n
      rw [List.mem_range'_1]
      omega
    · omega
  · show ((List.range' 1 (n - 1)).map (fun i => (i, i + 1))).Nodup
    refine List.Nodup.map ?_ (List.nodup_range' _ _)
    intro a b hab
    exact congrArg Prod.fst hab
  · intro e he hrev
    rw [mem_pathEdges] at he hrev
    omega

/-! ### Components of the path with one edge removed -/

theorem path_adj_erased {n i : Nat} {a b : Nat}
    (h : adjP (eraseE (pathGraph n).edges i (i + 1)) a b) :
    ((b = a + 1 ∨ a = b + 1) ∧ 1 ≤ min a b ∧ max a b ≤ n ∧
      ¬(min a b = i ∧ max a b = i + 1)) := by
  rcases h with hm | hm
  · rw [mem_eraseE, mem_pathEdges] at hm
    obtain ⟨⟨h1, h2, h3⟩, h4, h5⟩ := hm
    simp only at h1 h2 h3
    constructor
    · exact .inl h3
    refine ⟨by omega, by omega, ?_⟩
    rintro ⟨hmin, hmax⟩
    apply h4
    have : a = i ∧ b = i + 1 := by omega
    obtain ⟨a, b⟩ := (⟨this.1, this.2⟩ : a = i ∧ b = i + 1)
    subst a; subst b
    rfl
  · rw [mem_eraseE, mem_pathEdges] at hm
    obtain ⟨⟨h1, h2, h3⟩, h4, h5⟩ := hm
    simp only at h1 h2 h3
    constructor
    · exact .inr h3
    refine ⟨by omega, by omega, ?_⟩
    rintro ⟨hmin, hmax⟩
    apply h4
    have : b = i ∧ a = i + 1 := by omega
    obtain ⟨hb, ha⟩ := this
    subst hb; subst ha
    rfl

theorem path_adj_mk {n : Nat} {a : Nat} (h1 : 1 ≤ a) (h2 : a + 1 ≤ n) {i : Nat}
    (hne : a ≠ i) : adjP (eraseE (pathGraph n).edges i (i + 1)) a (a + 1) := by
  refine .inl (mem_eraseE.2 ⟨?_, ?_, ?_⟩)
  · rw [mem_pathEdges]
    exact ⟨h1, by omega, rfl⟩
  · intro hc
    exact hne (congrArg Prod.fst hc)
  · intro hc
    have := congrArg Prod.fst hc
    have := congrArg Prod.snd hc
    simp only at *
    omega

theorem path_reach_left {n i : Nat} (hi1 : 1 ≤ i) (hi2 : i ≤ n - 1) :
    ∀ w, reach (eraseE (pathGraph n).edges i (i + 1)) i w ↔ 1 ≤ w ∧ w ≤ i := by
  have hdir : ∀ w, reach (eraseE (pathGraph n).edges i (i + 1)) i w → 1 ≤ w ∧ w ≤ i := by
    intro w h
    induction h with
    | refl => omega
    | tail _ hstep ih =>
      have := path_adj_erased hstep
      omega
  intro w
  refine ⟨hdir w, ?_⟩
  rintro ⟨h1, h2⟩
  -- climb down from `i` to `w`
  have hstep : ∀ d, ∀ w, w + d = i → 1 ≤ w →
      reach (eraseE (pathGraph n).edges i (i + 1)) i w := by
    intro d
    induction d with
    | zero => intro w hw _; rw [← hw]; exact .refl
    | succ d ih =>
      intro w hw h1w
      refine (ih (w + 1) (by omega) (by omega)).tail ?_
      exact adjP_symm (path_adj_mk h1w (by omega) (by omega))
  exact hstep (i - w) w (by omega) h1

theorem path_reach_right {n i : Nat} (hi1 : 1 ≤ i) (hi2 : i ≤ n - 1) :
    ∀ w, reach (eraseE (pathGraph n).edges i (i + 1)) (i + 1) w ↔
      i + 1 ≤ w ∧ w ≤ n := by
  have hdir : ∀ w, reach (eraseE (pathGraph n).edges i (i + 1)) (i + 1) w →
      i + 1 ≤ w ∧ w ≤ n := by
    intro w h
    induction h with
    | refl => omega
    | tail _ hstep ih =>
      have := path_adj_erased hstep
      omega
  intro w
  refine ⟨hdir w, ?_⟩
  rintro ⟨h1, h2⟩
  -- climb up from `i + 1` to `w`
  have hstep : ∀ d, ∀ w, i + 1 + d = w → w ≤ n →
      reach (eraseE (pathGraph n).edges i (i + 1)) (i + 1) w := by
    intro d
    induction d with
    | zero => intro w hw _; rw [← hw]; exact .refl
    | succ d ih =>
      intro w hw h2w
      have hr := ih (w - 1) (by omega) (by omega)
      refine hr.tail ?_
      have := @path_adj_mk n (w - 1) (by omega) (by omega) i (by omega)
      have hw1 : w - 1 + 1 = w := by omega
      rw [hw1] at this
      exact this
  exact hstep (w - (i + 1)) w (by omega) h2

theorem path_erased_endpoints {n i : Nat} :
    ∀ f ∈ eraseE (pathGraph n).edges i (i + 1),
      f.1 ∈ (pathGraph n).nodes ∧ f.2 ∈ (pathGraph n).nodes := by
  intro f hf
  have := mem_pathEdges.1 (eraseE_subset f hf)
  constructor
  · show f.1 ∈ List.range' 1 n
    rw [List.mem_range'_1]
    omega
  · show f.2 ∈ List.range' 1 n
    rw [List.mem_range'_1]
    omega

theorem path_compList_left {n i : Nat} (hi1 : 1 ≤ i) (hi2 : i ≤ n - 1) :
    (compList (pathGraph n).nodes (eraseE (pathGraph n).edges i (i + 1)) i).length
      = i := by
  have hn2 : 2 ≤ n := by omega
  have hnd : (pathGraph n).nodes.Nodup := List.nodup_range' _ _
  have hiN : i ∈ (pathGraph n).nodes := by
    show i ∈ List.range' 1 n
    rw [List.mem_range'_1]
    omega
  have hperm : (compList (pathGraph n).nodes (eraseE (pathGraph n).edges i (i + 1)) i).Perm
      (List.range' 1 i) := by
    refine (List.perm_ext_iff_of_nodup (compList_nodup _ _ hnd) (List.nodup_range' _ _)).2 ?_
    intro w
    rw [mem_compList_iff hnd hiN path_erased_endpoints w, path_reach_left hi1 hi2 w,
      List.mem_range'_1]
    omega
  rw [hperm.length_eq, List.length_range']

theorem path_compList_right {n i : Nat} (hi1 : 1 ≤ i) (hi2 : i ≤ n - 1) :
    (compList (pathGraph n).nodes (eraseE (pathGraph n).edges i (i + 1)) (i + 1)).length
      = n - i := by
  have hn2 : 2 ≤ n := by omega
  have hnd : (pathGraph n).nodes.Nodup := List.nodup_range' _ _
  have hiN : i + 1 ∈ (pathGraph n).nodes := by
    show i + 1 ∈ List.range' 1 n
    rw [List.mem_range'_1]
    omega
  have hperm : (compList (pathGraph n).nodes (eraseE (pathGraph n).edges i (i + 1)) (i + 1)).Perm
      (List.range' (i + 1) (n - i)) := by
    refine (List.perm_ext_iff_of_nodup (compList_nodup _ _ hnd) (List.nodup_range' _ _)).2 ?_
    intro w
    rw [mem_compList_iff hnd hiN path_erased_endpoints w, path_reach_right hi1 hi2 w,
      List.mem_range'_1]
    omega
  rw [hperm.length_eq, List.length_range']

/-- The orientation of the path: each edge points toward its smaller
side, ties keeping `(i, i+1)`. -/
theorem LSO_path (n : Nat) : LSO (pathGraph n) = pathT n := by
  rw [LSO_eq_map _ (pathGraph_WF n)]
  show ((List.range' 1 (n - 1)).map (fun i => (i, i + 1))).map
      (orientEdge (pathGraph n).nodes (pathGraph n).edges) = pathT n
  unfold pathT
  rw [List.map_map]
  apply List.map_congr_left
  intro i hi
  rw [List.mem_range'_1] at hi
  have hi1 : 1 ≤ i := hi.1
  have hi2 : i ≤ n - 1 := by omega
  show orientEdge (pathGraph n).nodes (pathGraph n).edges (i, i + 1) = _
  unfold orientEdge
  simp only
  rw [path_compList_left hi1 hi2, path_compList_right hi1 hi2]
  by_cases hc : n > 2 * i
  · rw [if_pos (by omega), if_pos hc]
  · rw [if_neg (by omega), if_neg hc]

/-! ### The represented path tree -/

/-- Descending chain `j → j-1 → … → 1` (empty for `j = 0`). -/
def chainD : Nat → Forest
  | 0 => .nil
  | j + 1 => .cons (j + 1) (chainD j) .nil

/-- Ascending chain of `k` nodes `a → a+1 → … → a+k-1`. -/
def chainU : Nat → Nat → Forest
  | _, 0 => .nil
  | a, k + 1 => .cons a (chainU (a + 1) k) .nil

/-- Concatenation of sibling forests. -/
def appendF : Forest → Forest → Forest
  | .nil, g => g
  | .cons x c s, g => .cons x c (appendF s g)

/-- The child forest of the path tree's root `r = (n+1)/2`. -/
def pathC (n : Nat) : Forest :=
  appendF (chainD ((n + 1) / 2 - 1)) (chainU ((n + 1) / 2 + 1) (n - (n + 1) / 2))

theorem appendF_roots : ∀ f g : Forest, (appendF f g).roots = f.roots ++ g.roots := by
  intro f
  induction f with
  | nil => intro g; rfl
  | cons x c s ihc ihs => intro g; simp [appendF, Forest.roots, ihs]

theorem appendF_pre : ∀ f g : Forest, (appendF f g).pre = f.pre ++ g.pre := by
  intro f
  induction f with
  | nil => intro g; rfl
  | cons x c s ihc ihs => intro g; simp [appendF, Forest.pre, ihs]

theorem appendF_corrB {es : List Edge} : ∀ f g : Forest,
    corrB es (appendF f g) = (corrB es f && corrB es g) := by
  intro f
  induction f with
  | nil => intro g; rfl
  | cons x c s ihc ihs =>
    intro g
    simp [appendF, corrB, ihs, Bool.and_assoc]

theorem chainD_pre : ∀ j, (chainD j).pre = (List.range' 1 j).reverse := by
  intro j
  induction j with
  | zero => rfl
  | succ j ih =>
    have hpre : (chainD (j + 1)).pre = ((j + 1) :: (chainD j).pre) ++ [] := rfl
    rw [hpre, List.append_nil, ih, List.range'_concat, List.reverse_append]
    simp [Nat.add_comm, Nat.one_mul]

theorem chainU_pre : ∀ k a, (chainU a k).pre = List.range' a k := by
  intro k
  induction k with
  | zero => intro a; rfl
  | succ k ih =>
    intro a
    have hpre : (chainU a (k + 1)).pre = (a :: (chainU (a + 1) k).pre) ++ [] := rfl
    rw [hpre, List.append_nil, ih]
    rfl

theorem chainD_count : ∀ j, (chainD j).count = j := by
  intro j
  induction j with
  | zero => rfl
  | succ j ih =>
    simp [chainD, Forest.count, ih]
    omega

theorem chainU_count : ∀ k a, (chainU a k).count = k := by
  intro k
  induction k with
  | zero => intro a; rfl
  | succ k ih =>
    intro a
    simp [chainU, Forest.count, ih]
    omega

theorem chainD_roots (j : Nat) : (chainD (j + 1)).roots = [j + 1] := rfl

theorem chainU_roots (a k : Nat) : (chainU a (k + 1)).roots = [a] := rfl

/-- Filtering an interval by a predicate that holds for at most the two
values `a < b`. -/
theorem filter_range'_two {a b : Nat} (hab : a < b) (P : Nat → Bool)
    (hP : ∀ i, P i = true → i = a ∨ i = b) :
    ∀ (k s : Nat), (List.range' s k).filter P
      = (if s ≤ a ∧ a < s + k ∧ P a = true then [a] else [])
        ++ (if s ≤ b ∧ b < s + k ∧ P b = true then [b] else []) := by
  intro k
  induction k with
  | zero =>
    intro s
    rw [if_neg (fun h => by omega), if_neg (fun h => by omega)]
    rfl
  | succ k ih =>
    intro s
    have hcons : List.range' s (k + 1) = s :: List.range' (s + 1) k := rfl
    rw [hcons, List.filter_cons]
    by_cases hs : P s = true
    · rw [if_pos hs, ih (s + 1)]
      rcases hP s hs with rfl | rfl
      · have e1 : (if s + 1 ≤ s ∧ s < s + 1 + k ∧ P s = true then [s] else ([] : List Nat))
            = [] := if_neg (fun h => by omega)
        have e2 : (if s ≤ s ∧ s < s + (k + 1) ∧ P s = true then [s] else ([] : List Nat))
            = [s] := if_pos ⟨le_rfl, by omega, hs⟩
        have e3 : (if s + 1 ≤ b ∧ b < s + 1 + k ∧ P b = true then [b] else ([] : List Nat))
            = (if s ≤ b ∧ b < s + (k + 1) ∧ P b = true then [b] else []) := by
          refine if_congr ?_ rfl rfl
          constructor
          · rintro ⟨h1, h2, h3⟩; exact ⟨by omega, by omega, h3⟩
          · rintro ⟨h1, h2, h3⟩; exact ⟨by omega, by omega, h3⟩
        rw [e1, e2, e3]
        rfl
      · have e1 : (if s + 1 ≤ a ∧ a < s + 1 + k ∧ P a = true then [a] else ([] : List Nat))
            = [] := if_neg (fun h => by omega)
        have e2 : (if s + 1 ≤ s ∧ s < s + 1 + k ∧ P s = true then [s] else ([] : List Nat))
            = [] := if_neg (fun h => by omega)
        have e3 : (if s ≤ a ∧ a < s + (k + 1) ∧ P a = true then [a] else ([] : List Nat))
            = [] := if_neg (fun h => by omega)
        have e4 : (if s ≤ s ∧ s < s + (k + 1) ∧ P s = true then [s] else ([] : List Nat))
            = [s] := if_pos ⟨le_rfl, by omega, hs⟩
        rw [e1, e2, e3, e4]
        rfl
    · rw [if_neg hs, ih (s + 1)]
      have hiffa : (s + 1 ≤ a ∧ a < s + 1 + k ∧ P a = true)
          ↔ (s ≤ a ∧ a < s + (k + 1) ∧ P a = true) := by
        constructor
        · rintro ⟨h1, h2, h3⟩; exact ⟨by omega, by omega, h3⟩
        · rintro ⟨h1, h2, h3⟩
          refine ⟨?_, by omega, h3⟩
          rcases Nat.eq_or_lt_of_le h1 with rfl | hlt
          · exact absurd h3 hs
          · omega
      have hiffb : (s + 1 ≤ b ∧ b < s + 1 + k ∧ P b = true)
          ↔ (s ≤ b ∧ b < s + (k + 1) ∧ P b = true) := by
        constructor
        · rintro ⟨h1, h2, h3⟩; exact ⟨by omega, by omega, h3⟩
        · rintro ⟨h1, h2, h3⟩
          refine ⟨?_, by omega, h3⟩
          rcases Nat.eq_or_lt_of_le h1 with rfl | hlt
          · exact absurd h3 hs
          · omega
      rw [if_congr hiffa rfl rfl, if_congr hiffb rfl rfl]

/-- Successor lists in the oriented path: a node has its left neighbor
as child exactly on the left half (`2x < n + 2`), and its right
neighbor exactly on the right half (`n ≤ 2x`). -/
theorem childrenOf_pathT (n x : Nat) (hx : 1 ≤ x) :
    childrenOf (pathT n) x =
      (if 2 ≤ x ∧ x ≤ n ∧ 2 * x < n + 2 then [x - 1] else []) ++
      (if x + 1 ≤ n ∧ n ≤ 2 * x then [x + 1] else []) := by
  have h0 : childrenOf (pathT n) x
      = ((List.range' 1 (n - 1)).filter
          (fun i => decide (((if n > 2 * i then ((i + 1, i) : Edge) else (i, i + 1))).1 = x))).map
          (fun i => ((if n > 2 * i then ((i + 1, i) : Edge) else (i, i + 1))).2) := by
    unfold childrenOf pathT
    rw [List.filter_map, List.map_map]
    rfl
  have hcand : ∀ i, (fun i => decide (((if n > 2 * i then ((i + 1, i) : Edge) else (i, i + 1))).1 = x)) i = true
      → i = x - 1 ∨ i = x := by
    intro i h
    simp only [decide_eq_true_eq] at h
    by_cases hc : n > 2 * i
    · rw [if_pos hc] at h
      simp only at h
      omega
    · rw [if_neg hc] at h
      simp only at h
      omega
  rw [h0, @filter_range'_two (x - 1) x (by omega) _ hcand (n - 1) 1]
  rw [List.map_append, apply_ite (List.map (fun i =>
    ((if n > 2 * i then ((i + 1, i) : Edge) else (i, i + 1))).2)),
    apply_ite (List.map (fun i =>
    ((if n > 2 * i then ((i + 1, i) : Edge) else (i, i + 1))).2))]
  simp only [List.map_cons, List.map_nil]
  congr 1
  · -- left-child part
    by_cases hA : 2 ≤ x ∧ x ≤ n ∧ 2 * x < n + 2
    · have hcond : 1 ≤ x - 1 ∧ x - 1 < 1 + (n - 1) ∧
          (decide (((if n > 2 * (x - 1) then ((x - 1 + 1, x - 1) : Edge)
            else (x - 1, x - 1 + 1))).1 = x)) = true := by
        have hgt : n > 2 * (x - 1) := by omega
        refine ⟨by omega, by omega, ?_⟩
        rw [if_pos hgt]
        simp only [decide_eq_true_eq]
        omega
      rw [if_pos hcond, if_pos hA]
      have hgt : n > 2 * (x - 1) := by omega
      rw [if_pos hgt]
    · have hcond : ¬(1 ≤ x - 1 ∧ x - 1 < 1 + (n - 1) ∧
          (decide (((if n > 2 * (x - 1) then ((x - 1 + 1, x - 1) : Edge)
            else (x - 1, x - 1 + 1))).1 = x)) = true) := by
        rintro ⟨h1, h2, h3⟩
        by_cases hc : n > 2 * (x - 1)
        · rw [if_pos hc] at h3
          simp only [decide_eq_true_eq] at h3
          omega
        · rw [if_neg hc] at h3
          simp only [decide_eq_true_eq] at h3
          omega
      rw [if_neg hcond, if_neg hA]
  · -- right-child part
    by_cases hB : x + 1 ≤ n ∧ n ≤ 2 * x
    · have hcond : 1 ≤ x ∧ x < 1 + (n - 1) ∧
          (decide (((if n > 2 * x then ((x + 1, x) : Edge) else (x, x + 1))).1 = x)) = true := by
        have hle : ¬ n > 2 * x := by omega
        refine ⟨by omega, by omega, ?_⟩
        rw [if_neg hle]
        simp only [decide_eq_true_eq]
      rw [if_pos hcond, if_pos hB]
      have hle : ¬ n > 2 * x := by omega
      rw [if_neg hle]
    · have hcond : ¬(1 ≤ x ∧ x < 1 + (n - 1) ∧
          (decide (((if n > 2 * x then ((x + 1, x) : Edge) else (x, x + 1))).1 = x)) = true) := by
        rintro ⟨h1, h2, h3⟩
        by_cases hc : n > 2 * x
        · rw [if_pos hc] at h3
          simp only [decide_eq_true_eq] at h3
          omega
        · rw [if_neg hc] at h3
          simp only [decide_eq_true_eq] at h3
          omega
      rw [if_neg hcond, if_neg hB]

theorem corrB_chainD (n : Nat) : ∀ j, 2 * j + 1 ≤ n →
    corrB (pathT n) (chainD j) = true := by
  intro j
  induction j with
  | zero => intro _; rfl
  | succ j ih =>
    intro hj
    show corrB (pathT n) (.cons (j + 1) (chainD j) .nil) = true
    simp only [corrB, Bool.and_eq_true, decide_eq_true_eq]
    refine ⟨⟨?_, ih (by omega)⟩, trivial⟩
    rw [childrenOf_pathT n (j + 1) (by omega)]
    rcases j with - | jj
    · rw [if_neg (fun h => by omega), if_neg (fun h => by omega)]
      rfl
    · rw [if_pos ⟨by omega, by omega, by omega⟩, if_neg (fun h => by omega)]
      have h1 : jj + 1 + 1 - 1 = jj + 1 := by omega
      rw [h1]
      rfl

theorem corrB_chainU (n : Nat) : ∀ k a, a + k = n + 1 → n + 2 ≤ 2 * a →
    corrB (pathT n) (chainU a k) = true := by
  intro k
  induction k with
  | zero => intro a _ _; rfl
  | succ k ih =>
    intro a ha h2a
    show corrB (pathT n) (.cons a (chainU (a + 1) k) .nil) = true
    simp only [corrB, Bool.and_eq_true, decide_eq_true_eq]
    refine ⟨⟨?_, ih (a + 1) (by omega) (by omega)⟩, trivial⟩
    rw [childrenOf_pathT n a (by omega)]
    rcases k with - | kk
    · rw [if_neg (fun h => by omega), if_neg (fun h => by omega)]
      rfl
    · rw [if_neg (fun h => by omega), if_pos ⟨by omega, by omega⟩]
      rfl

theorem corrB_pathTree (n : Nat) (hn : 2 ≤ n) :
    corrB (pathT n) (.cons ((n + 1) / 2) (pathC n) .nil) = true := by
  simp only [corrB, Bool.and_eq_true, decide_eq_true_eq]
  refine ⟨⟨?_, ?_⟩, trivial⟩
  · rw [childrenOf_pathT n ((n + 1) / 2) (by omega)]
    unfold pathC
    rw [appendF_roots]
    by_cases h3 : 3 ≤ n
    · rw [if_pos ⟨by omega, by omega, by omega⟩, if_pos ⟨by omega, by omega⟩]
      have h1 : (n + 1) / 2 - 1 = ((n + 1) / 2 - 2) + 1 := by omega
      have h2 : n - (n + 1) / 2 = (n - (n + 1) / 2 - 1) + 1 := by omega
      rw [h1, h2, chainD_roots, chainU_roots]
    · have hn2 : n = 2 := by omega
      subst hn2
      rw [if_neg (fun h => by omega), if_pos ⟨by omega, by omega⟩]
      rfl
  · unfold pathC
    rw [appendF_corrB, corrB_chainD n ((n + 1) / 2 - 1) (by omega),
      corrB_chainU n (n - (n + 1) / 2) ((n + 1) / 2 + 1) (by omega) (by omega)]
    rfl

theorem mem_pathT {n : Nat} {e : Edge} (he : e ∈ pathT n) :
    1 ≤ e.1 ∧ e.1 ≤ n ∧ 1 ≤ e.2 ∧ e.2 ≤ n := by
  unfold pathT at he
  rw [List.mem_map] at he
  obtain ⟨i, hi, rfl⟩ := he
  rw [List.mem_range'_1] at hi
  by_cases hc : n > 2 * i
  · rw [if_pos hc]
    simp only
    omega
  · rw [if_neg hc]
    simp only
    omega

theorem pathT_nodup (n : Nat) : (pathT n).Nodup := by
  unfold pathT
  refine List.Nodup.map ?_ (List.nodup_range' _ _)
  intro i j hij
  dsimp only at hij
  by_cases hi : n > 2 * i <;> by_cases hj : n > 2 * j
  · rw [if_pos hi, if_pos hj] at hij
    exact (Prod.mk.injEq .. ▸ hij).2
  · rw [if_pos hi, if_neg hj] at hij
    have h1 := (Prod.mk.injEq .. ▸ hij).1
    have h2 := (Prod.mk.injEq .. ▸ hij).2
    omega
  · rw [if_neg hi, if_pos hj] at hij
    have h1 := (Prod.mk.injEq .. ▸ hij).1
    have h2 := (Prod.mk.injEq .. ▸ hij).2
    omega
  · rw [if_neg hi, if_neg hj] at hij
    exact (Prod.mk.injEq .. ▸ hij).1

theorem pathTree_pre (n : Nat) :
    ((n + 1) / 2 :: (pathC n).pre)
      = (n + 1) / 2 :: ((List.range' 1 ((n + 1) / 2 - 1)).reverse
          ++ List.range' ((n + 1) / 2 + 1) (n - (n + 1) / 2)) := by
  unfold pathC
  rw [appendF_pre, chainD_pre, chainU_pre]

theorem pathTree_perm (n : Nat) (hn : 2 ≤ n) :
    (List.range' 1 n).Perm ((n + 1) / 2 :: (pathC n).pre) := by
  rw [pathTree_pre]
  have hsplit : List.range' 1 n
      = List.range' 1 ((n + 1) / 2 - 1)
        ++ ((n + 1) / 2 :: List.range' ((n + 1) / 2 + 1) (n - (n + 1) / 2)) := by
    have h1 : ((n + 1) / 2 :: List.range' ((n + 1) / 2 + 1) (n - (n + 1) / 2))
        = List.range' ((n + 1) / 2) (n - (n + 1) / 2 + 1) := by
      have h2 : n - (n + 1) / 2 + 1 = (n - (n + 1) / 2) + 1 := rfl
      rw [h2]
      rfl
    rw [h1]
    have h3 := List.range'_append 1 ((n + 1) / 2 - 1) (n - (n + 1) / 2 + 1) 1
    simp only [Nat.one_mul] at h3
    have h4 : 1 + ((n + 1) / 2 - 1) = (n + 1) / 2 := by omega
    have h5 : n - (n + 1) / 2 + 1 + ((n + 1) / 2 - 1) = n := by omega
    rw [h4, h5] at h3
    exact h3.symm
  rw [hsplit]
  refine (List.perm_middle).trans ?_
  refine List.Perm.cons _ ?_
  exact (List.reverse_perm _).symm.append_right _

/-- The oriented path is represented by the two-armed chain tree rooted
at `(n+1)/2`. -/
theorem represents_path (n : Nat) (hn : 2 ≤ n) :
    Represents (pathT n) (pathGraph n).nodes ((n + 1) / 2) (pathC n) := by
  have hperm := pathTree_perm n hn
  refine ⟨?_, hperm, ?_, pathT_nodup n, corrB_pathTree n hn⟩
  · exact hperm.nodup_iff.1 (List.nodup_range' _ _)
  · intro e he
    have hmem := mem_pathT he
    refine hperm.mem_iff.1 ?_
    show e.1 ∈ List.range' 1 n
    rw [List.mem_range'_1]
    omega

/-- The whole path tree: root `(n+1)/2` over the two arms. -/
def pathTree (n : Nat) : Forest := .cons ((n + 1) / 2) (pathC n) .nil

theorem orElse_none {α : Type} (o : Option α) :
    (o.orElse fun _ => none) = o := by cases o <;> rfl

theorem findC_appendF (x : Nat) : ∀ f g : Forest,
    findC x (appendF f g) = (findC x f).orElse (fun _ => findC x g) := by
  intro f
  induction f with
  | nil => intro g; rfl
  | cons y c s ihc ihs =>
    intro g
    show (if y = x then some c else (findC x c).orElse fun _ => findC x (appendF s g))
        = ((if y = x then some c else (findC x c).orElse fun _ => findC x s).orElse
            fun _ => findC x g)
    by_cases hyx : y = x
    · rw [if_pos hyx, if_pos hyx]
      rfl
    · rw [if_neg hyx, if_neg hyx, ihs]
      rcases findC x c with - | c' <;> rfl

theorem findC_chainD_some : ∀ j x, 1 ≤ x → x ≤ j →
    findC x (chainD j) = some (chainD (x - 1)) := by
  intro j
  induction j with
  | zero => intro x h1 h2; omega
  | succ j ih =>
    intro x h1 h2
    show (if j + 1 = x then some (chainD j)
        else (findC x (chainD j)).orElse fun _ => findC x Forest.nil) = _
    by_cases hx : j + 1 = x
    · rw [if_pos hx]
      have h3 : j = x - 1 := by omega
      rw [h3]
    · rw [if_neg hx, ih x h1 (by omega)]
      rfl

theorem findC_chainD_none : ∀ j x, j < x → findC x (chainD j) = none := by
  intro j
  induction j with
  | zero => intro x _; rfl
  | succ j ih =>
    intro x hx
    show (if j + 1 = x then some (chainD j)
        else (findC x (chainD j)).orElse fun _ => findC x Forest.nil) = _
    rw [if_neg (by omega), ih x (by omega)]
    rfl

theorem findC_chainU_some : ∀ k a x, a ≤ x → x < a + k →
    findC x (chainU a k) = some (chainU (x + 1) (a + k - 1 - x)) := by
  intro k
  induction k with
  | zero => intro a x h1 h2; omega
  | succ k ih =>
    intro a x h1 h2
    show (if a = x then some (chainU (a + 1) k)
        else (findC x (chainU (a + 1) k)).orElse fun _ => findC x Forest.nil) = _
    by_cases hx : a = x
    · rw [if_pos hx]
      have h3 : a + (k + 1) - 1 - x = k := by omega
      rw [h3, hx]
    · rw [if_neg hx, ih (a + 1) x (by omega) (by omega)]
      have h3 : a + 1 + k - 1 - x = a + (k + 1) - 1 - x := by omega
      rw [h3]
      rfl

theorem findC_pathTree_root (n : Nat) :
    findC ((n + 1) / 2) (pathTree n) = some (pathC n) := by
  show (if (n + 1) / 2 = (n + 1) / 2 then some (pathC n) else _) = _
  rw [if_pos rfl]

theorem findC_pathTree_left (n x : Nat) (h1 : 1 ≤ x) (h2 : x ≤ (n + 1) / 2 - 1) :
    findC x (pathTree n) = some (chainD (x - 1)) := by
  show (if (n + 1) / 2 = x then some (pathC n)
      else (findC x (pathC n)).orElse fun _ => findC x Forest.nil) = _
  rw [if_neg (by omega)]
  unfold pathC
  rw [findC_appendF, findC_chainD_some ((n + 1) / 2 - 1) x h1 h2]
  rfl

theorem findC_pathTree_right (n x : Nat) (h1 : (n + 1) / 2 + 1 ≤ x) (h2 : x ≤ n) :
    findC x (pathTree n) = some (chainU (x + 1) (n - x)) := by
  show (if (n + 1) / 2 = x then some (pathC n)
      else (findC x (pathC n)).orElse fun _ => findC x Forest.nil) = _
  rw [if_neg (by omega)]
  unfold pathC
  rw [findC_appendF, findC_chainD_none ((n + 1) / 2 - 1) x (by omega),
    findC_chainU_some (n - (n + 1) / 2) ((n + 1) / 2 + 1) x h1 (by omega)]
  have h3 : (n + 1) / 2 + 1 + (n - (n + 1) / 2) - 1 - x = n - x := by omega
  rw [h3]
  rfl

theorem specSize_path_root (n : Nat) (hn : 1 ≤ n) :
    specSize (pathTree n) ((n + 1) / 2) = n := by
  unfold specSize
  rw [findC_pathTree_root]
  show 1 + (pathC n).count = n
  rw [← Forest.pre_length]
  unfold pathC
  rw [appendF_pre, chainD_pre, chainU_pre]
  simp only [List.length_append, List.length_reverse, List.length_range']
  omega

theorem specSize_path_left (n x : Nat) (h1 : 1 ≤ x) (h2 : x ≤ (n + 1) / 2 - 1) :
    specSize (pathTree n) x = x := by
  unfold specSize
  rw [findC_pathTree_left n x h1 h2]
  show 1 + (chainD (x - 1)).count = x
  rw [chainD_count]
  omega

theorem specSize_path_right (n x : Nat) (h1 : (n + 1) / 2 + 1 ≤ x) (h2 : x ≤ n) :
    specSize (pathTree n) x = n + 1 - x := by
  unfold specSize
  rw [findC_pathTree_right n x h1 h2]
  show 1 + (chainU (x + 1) (n - x)).count = n + 1 - x
  rw [chainU_count]
  omega

theorem distinctCount_eq_of_mem_iff {α : Type} [DecidableEq α] (l l' : List α)
    (h' : l'.Nodup) (hm : ∀ a, a ∈ l ↔ a ∈ l') : distinctCount l = l'.length := by
  refine List.Perm.length_eq ?_
  refine (List.perm_ext_iff_of_nodup (List.nodup_dedup l) h').2 ?_
  intro a
  rw [List.mem_dedup]
  exact hm a

theorem mem_pathC_pre {n x : Nat} : x ∈ (pathC n).pre ↔
    (1 ≤ x ∧ x ≤ (n + 1) / 2 - 1) ∨ ((n + 1) / 2 + 1 ≤ x ∧ x ≤ n) := by
  unfold pathC
  rw [appendF_pre, chainD_pre, chainU_pre, List.mem_append, List.mem_reverse,
    List.mem_range'_1, List.mem_range'_1]
  omega

/-- The distinct-label count of `alg2` on the path: the subtree sizes of
the non-root nodes are exactly `1, …, n/2`. -/
theorem path_B2 (n : Nat) (hn : 2 ≤ n) :
    distinctCount ((pathC n).pre.map (specSize (pathTree n))) = n / 2 := by
  rw [distinctCount_eq_of_mem_iff _ (List.range' 1 (n / 2))
    (List.nodup_range' _ _) ?_, List.length_range']
  intro a
  rw [List.mem_map, List.mem_range'_1]
  constructor
  · rintro ⟨x, hx, rfl⟩
    rcases mem_pathC_pre.1 hx with ⟨h1, h2⟩ | ⟨h1, h2⟩
    · rw [specSize_path_left n x h1 h2]
      omega
    · rw [specSize_path_right n x h1 h2]
      omega
  · intro ha
    refine ⟨n + 1 - a, mem_pathC_pre.2 (Or.inr ⟨by omega, by omega⟩), ?_⟩
    rw [specSize_path_right n (n + 1 - a) (by omega) (by omega)]
    omega

theorem sorted_le_range' : ∀ k a, (List.range' a k).Sorted (· ≤ ·) := by
  intro k
  induction k with
  | zero => intro a; exact List.sorted_nil
  | succ k ih =>
    intro a
    refine List.sorted_cons.2 ⟨?_, ih (a + 1)⟩
    intro b hb
    rw [List.mem_range'_1] at hb
    omega

theorem map_sub_perm (c : Nat) : ∀ k a, a + k ≤ c + 1 →
    ((List.range' a k).map (fun y => c + 1 - y)).Perm
      (List.range' (c + 2 - (a + k)) k) := by
  intro k
  induction k with
  | zero => intro a _; exact List.Perm.refl _
  | succ k ih =>
    intro a ha
    have hstep : List.range' a (k + 1) = a :: List.range' (a + 1) k := rfl
    rw [hstep, List.map_cons]
    have hih := ih (a + 1) (by omega)
    have harith : c + 2 - (a + 1 + k) = c + 1 - (a + k) := by omega
    rw [harith] at hih
    have hconcat : List.range' (c + 2 - (a + (k + 1))) (k + 1)
        = List.range' (c + 1 - (a + k)) k ++ [c + 1 - a] := by
      have h1 : c + 2 - (a + (k + 1)) = c + 1 - (a + k) := by omega
      rw [h1, List.range'_concat]
      have h2 : c + 1 - (a + k) + 1 * k = c + 1 - a := by omega
      rw [h2]
    rw [hconcat]
    refine List.Perm.trans (List.Perm.cons _ hih) ?_
    exact (List.perm_append_singleton _ _).symm

theorem range'_one_concat (x : Nat) (hx : 1 ≤ x) :
    List.range' 1 x = List.range' 1 (x - 1) ++ [x] := by
  have h1 : x = (x - 1) + 1 := by omega
  conv_lhs => rw [h1]
  rw [List.range'_concat]
  have h2 : 1 + 1 * (x - 1) = x := by omega
  rw [h2]

theorem chainD_ne_nil (j : Nat) (hj : 1 ≤ j) : chainD j ≠ .nil := by
  have h1 : j = (j - 1) + 1 := by omega
  rw [h1]
  intro h
  simp [chainD] at h

theorem chainU_ne_nil (a k : Nat) (hk : 1 ≤ k) : chainU a k ≠ .nil := by
  have h1 : k = (k - 1) + 1 := by omega
  rw [h1]
  intro h
  simp [chainU] at h

theorem specTile_path_left (n x : Nat) (h1 : 2 ≤ x) (h2 : x ≤ (n + 1) / 2 - 1) :
    specTile (pathTree n) x = List.range' 1 x := by
  unfold specTile
  rw [findC_pathTree_left n x (by omega) h2]
  show (if chainD (x - 1) = .nil then []
      else List.insertionSort (· ≤ ·)
        ((x :: (chainD (x - 1)).pre).map (specSize (pathTree n)))) = _
  rw [if_neg (chainD_ne_nil (x - 1) (by omega)), chainD_pre]
  have hmap : ((x :: (List.range' 1 (x - 1)).reverse).map (specSize (pathTree n)))
      = x :: (List.range' 1 (x - 1)).reverse := by
    have hcongr : ∀ y ∈ x :: (List.range' 1 (x - 1)).reverse,
        specSize (pathTree n) y = id y := by
      intro y hy
      rcases List.mem_cons.1 hy with rfl | hy'
      · exact specSize_path_left n y (by omega) h2
      · rw [List.mem_reverse, List.mem_range'_1] at hy'
        exact specSize_path_left n y (by omega) (by omega)
    rw [List.map_congr_left hcongr, List.map_id]
  rw [hmap]
  refine List.eq_of_perm_of_sorted ?_ (List.sorted_insertionSort _ _)
    (sorted_le_range' x 1)
  refine List.Perm.trans (List.perm_insertionSort _ _) ?_
  rw [range'_one_concat x (by omega)]
  refine List.Perm.trans (List.Perm.cons _ (List.reverse_perm _)) ?_
  exact (List.perm_append_singleton _ _).symm

theorem specTile_path_right (n x : Nat) (h1 : (n + 1) / 2 + 1 ≤ x)
    (h2 : x ≤ n - 1) :
    specTile (pathTree n) x = List.range' 1 (n - x + 1) := by
  unfold specTile
  rw [findC_pathTree_right n x h1 (by omega)]
  show (if chainU (x + 1) (n - x) = .nil then []
      else List.insertionSort (· ≤ ·)
        ((x :: (chainU (x + 1) (n - x)).pre).map (specSize (pathTree n)))) = _
  rw [if_neg (chainU_ne_nil (x + 1) (n - x) (by omega)), chainU_pre]
  have hmap : ((x :: List.range' (x + 1) (n - x)).map (specSize (pathTree n)))
      = (x :: List.range' (x + 1) (n - x)).map (fun y => n + 1 - y) := by
    refine List.map_congr_left ?_
    intro y hy
    rcases List.mem_cons.1 hy with rfl | hy'
    · exact specSize_path_right n y h1 (by omega)
    · rw [List.mem_range'_1] at hy'
      exact specSize_path_right n y (by omega) (by omega)
  rw [hmap]
  refine List.eq_of_perm_of_sorted ?_ (List.sorted_insertionSort _ _)
    (sorted_le_range' (n - x + 1) 1)
  refine List.Perm.trans (List.perm_insertionSort _ _) ?_
  rw [List.map_cons]
  have hperm := map_sub_perm n (n - x) (x + 1) (by omega)
  have harith : n + 2 - (x + 1 + (n - x)) = 1 := by omega
  rw [harith] at hperm
  refine List.Perm.trans (List.Perm.cons _ hperm) ?_
  rw [range'_one_concat (n - x + 1) (by omega)]
  have h3 : n - x + 1 - 1 = n - x := by omega
  rw [h3]
  have h4 : n + 1 - x = n - x + 1 := by omega
  rw [h4]
  exact (List.perm_append_singleton _ _).symm

theorem specTile_path_one (n : Nat) (hn : 3 ≤ n) :
    specTile (pathTree n) 1 = [] := by
  unfold specTile
  rw [findC_pathTree_left n 1 le_rfl (by omega)]
  show (if chainD (1 - 1) = .nil then [] else _) = []
  rw [if_pos (show chainD (1 - 1) = Forest.nil from rfl)]

theorem specTile_path_n (n : Nat) (hn : 2 ≤ n) :
    specTile (pathTree n) n = [] := by
  unfold specTile
  rw [findC_pathTree_right n n (by omega) le_rfl]
  show (if chainU (n + 1) (n - n) = .nil then [] else _) = []
  rw [if_pos (by rw [Nat.sub_self]; rfl)]

theorem pathC_ne_nil (n : Nat) (hn : 2 ≤ n) : pathC n ≠ .nil := by
  unfold pathC
  rcases h : chainD ((n + 1) / 2 - 1) with - | ⟨y, c, s⟩
  · show chainU ((n + 1) / 2 + 1) (n - (n + 1) / 2) ≠ Forest.nil
    exact chainU_ne_nil _ _ (by omega)
  · intro hc
    simp [appendF] at hc

theorem specTile_path_root_mem (n : Nat) (hn : 2 ≤ n) :
    n ∈ specTile (pathTree n) ((n + 1) / 2) := by
  unfold specTile
  rw [findC_pathTree_root]
  show n ∈ (if pathC n = .nil then []
      else List.insertionSort (· ≤ ·)
        ((((n + 1) / 2) :: (pathC n).pre).map (specSize (pathTree n))))
  rw [if_neg (pathC_ne_nil n hn)]
  refine (List.perm_insertionSort _ _).mem_iff.2 ?_
  rw [List.mem_map]
  exact ⟨(n + 1) / 2, List.mem_cons_self _ _, specSize_path_root n (by omega)⟩

/-- The distinct-tile count of `alg2` on the path: the catalog is the
root's tile, the empty tile, and the staircase tiles `[1..k]` for
`2 ≤ k ≤ n/2`. -/
theorem path_T2 (n : Nat) (hn : 2 ≤ n) :
    distinctCount ((((n + 1) / 2) :: (pathC n).pre).map (specTile (pathTree n)))
      = n / 2 + 1 := by
  have hroot := specTile_path_root_mem n hn
  have hnd : (specTile (pathTree n) ((n + 1) / 2) :: [] ::
      (List.range' 2 (n / 2 - 1)).map (List.range' 1)).Nodup := by
    refine List.nodup_cons.2 ⟨?_, List.nodup_cons.2 ⟨?_, ?_⟩⟩
    · intro hmem
      rcases List.mem_cons.1 hmem with he | hmem2
      · rw [he] at hroot
        exact absurd hroot (List.not_mem_nil n)
      · obtain ⟨k, hk, he⟩ := List.mem_map.1 hmem2
        rw [List.mem_range'_1] at hk
        rw [← he, List.mem_range'_1] at hroot
        omega
    · intro hmem
      obtain ⟨k, hk, he⟩ := List.mem_map.1 hmem
      rw [List.mem_range'_1] at hk
      have hlen := congrArg List.length he
      rw [List.length_range'] at hlen
      simp only [List.length_nil] at hlen
      omega
    · refine List.Nodup.map ?_ (List.nodup_range' _ _)
      intro a b hab
      have hlen := congrArg List.length hab
      rwa [List.length_range', List.length_range'] at hlen
  have hm : ∀ a, a ∈ (((n + 1) / 2) :: (pathC n).pre).map (specTile (pathTree n))
      ↔ a ∈ specTile (pathTree n) ((n + 1) / 2) :: [] ::
          (List.range' 2 (n / 2 - 1)).map (List.range' 1) := by
    intro a
    constructor
    · intro ha
      obtain ⟨x, hx, rfl⟩ := List.mem_map.1 ha
      rcases List.mem_cons.1 hx with rfl | hx'
      · exact List.mem_cons_self _ _
      · rcases mem_pathC_pre.1 hx' with ⟨h1, h2⟩ | ⟨h1, h2⟩
        · by_cases hx1 : x = 1
          · subst hx1
            rw [specTile_path_one n (by omega)]
            exact List.mem_cons_of_mem _ (List.mem_cons_self _ _)
          · rw [specTile_path_left n x (by omega) h2]
            refine List.mem_cons_of_mem _ (List.mem_cons_of_mem _ ?_)
            refine List.mem_map.2 ⟨x, ?_, rfl⟩
            rw [List.mem_range'_1]
            omega
        · by_cases hxn : x = n
          · rw [hxn, specTile_path_n n hn]
            exact List.mem_cons_of_mem _ (List.mem_cons_self _ _)
          · rw [specTile_path_right n x h1 (by omega)]
            refine List.mem_cons_of_mem _ (List.mem_cons_of_mem _ ?_)
            refine List.mem_map.2 ⟨n - x + 1, ?_, rfl⟩
            rw [List.mem_range'_1]
            omega
    · intro ha
      rcases List.mem_cons.1 ha with rfl | ha'
      · exact List.mem_map.2 ⟨(n + 1) / 2, List.mem_cons_self _ _, rfl⟩
      · rcases List.mem_cons.1 ha' with rfl | ha''
        · refine List.mem_map.2 ⟨n, ?_, specTile_path_n n hn⟩
          exact List.mem_cons_of_mem _ (mem_pathC_pre.2 (Or.inr ⟨by omega, le_rfl⟩))
        · obtain ⟨k, hk, rfl⟩ := List.mem_map.1 ha''
          rw [List.mem_range'_1] at hk
          refine List.mem_map.2 ⟨n + 1 - k, ?_, ?_⟩
          · exact List.mem_cons_of_mem _
              (mem_pathC_pre.2 (Or.inr ⟨by omega, by omega⟩))
          · rw [specTile_path_right n (n + 1 - k) (by omega) (by omega)]
            have h5 : n - (n + 1 - k) + 1 = k := by omega
            rw [h5]
  rw [distinctCount_eq_of_mem_iff _ _ hnd hm]
  simp only [List.length_cons, List.length_map, List.length_range']
  omega

/-- `alg2` on the path of `n` nodes returns `(n/2, n/2 + 1)`. -/
theorem path_alg2 (n : Nat) (hn : 2 ≤ n) :
    alg2 (pathGraph n) = (n / 2, n / 2 + 1) := by
  have hrep : Represents (LSO (pathGraph n)) (pathGraph n).nodes
      ((n + 1) / 2) (pathC n) := by
    rw [LSO_path]
    exact represents_path n hn
  have h := (alg2_spec hrep).1
  have hb := path_B2 n hn
  have ht := path_T2 n hn
  unfold pathTree at hb ht
  rw [h, hb, ht]

/-- C9 counterexample: on the path with 2 nodes (a tree input), `alg2`
returns a tile count of 2, not the claimed `T2 = 1`; already the
smallest path refutes the claim, and the tile count grows as `n/2 + 1`. -/
theorem claim_C9_counterexample :
    isTreeInputB (pathGraph 2) = true ∧ alg2 (pathGraph 2) = (1, 2) ∧
      (alg2 (pathGraph 2)).2 ≠ 1 ∧ alg2 (pathGraph 6) = (3, 4) := by decide

/-- C9 (amended): on the path graph with `n ≥ 2` nodes, `alg2` returns
the pair `(n/2, n/2 + 1)`: the tile count is `n/2 + 1`, not 1, and the
distinct edge-label count `B2 = n/2` is at most `n - 1`. -/
theorem claim_C9 (n : Nat) (hn : 2 ≤ n) :
    alg2 (pathGraph n) = (n / 2, n / 2 + 1) ∧ (alg2 (pathGraph n)).1 ≤ n - 1 := by
  refine ⟨path_alg2 n hn, ?_⟩
  rw [path_alg2 n hn]
  show n / 2 ≤ n - 1
  omega

/-- Witness for C9 at `n = 5`. -/
theorem claim_C9_witness :
    2 ≤ 5 ∧ (alg2 (pathGraph 5) = (5 / 2, 5 / 2 + 1) ∧
      (alg2 (pathGraph 5)).1 ≤ 5 - 1) :=
  ⟨by decide, claim_C9 5 (by decide)⟩

end AlgTrees
